import Mathlib

/-!
Verification of the Wordle strategy-exploration core
(`wordle_utils.pyx` and the strategies module) against its
natural-language specification.

Conventions of the shallow embedding:
* Python strings are `List Char`.
* Python `set` values holding letters are `List Char` used with
  membership-based operations only (`filter`, `∈`), matching the
  observable behaviour of the Python sets in this program.
* The possibility dictionary mapping positions 1..5 to letter sets is a
  `List (List Char)` of length 5 (index 0 is position 1).
* Fallible calls (assertion failures, `re.error`, `IndexError`,
  loops without a bound) are modelled with `Option` / `Except`; loops
  take explicit fuel.
-/

/-- The constraint dictionary: one possible-letter set per position. -/
abbrev Poss := List (List Char)

/-- `string.ascii_lowercase`. -/
def ascii_lowercase : List Char :=
  ['a', 'b', 'c', 'd', 'e', 'f', 'g', 'h', 'i', 'j', 'k', 'l', 'm',
   'n', 'o', 'p', 'q', 'r', 's', 't', 'u', 'v', 'w', 'x', 'y', 'z']

/-- The initial constraint state: every letter possible at every position
(`{i: set(string.ascii_lowercase) for i in range(1, 6)}`). -/
def initPoss : Poss :=
  [ascii_lowercase, ascii_lowercase, ascii_lowercase, ascii_lowercase, ascii_lowercase]

/-- Python `sorted` on a collection of characters. -/
def pySortChars (s : List Char) : List Char :=
  s.insertionSort (· ≤ ·)

/-- Python whitespace test, restricted to the characters that occur here. -/
def pyIsSpace (c : Char) : Bool :=
  c = ' ' || c = '\n' || c = '\t' || c = '\r'

/-- Python `str.strip()`: drop leading and trailing whitespace. -/
def pyStrip (l : List Char) : List Char :=
  ((l.dropWhile pyIsSpace).reverse.dropWhile pyIsSpace).reverse

/-- Python `''.join(sorted(set(s)))`: deduplicate, then sort. -/
def sortedDedup (l : List Char) : List Char :=
  pySortChars l.dedup

/-!
## GuessEvaluator: `evaluate_guess` (wordle_utils.pyx lines 176-211)

The loop body is translated position by position; `p` is the running
0-based position (`pos` in the source), `amb` is `unknown_pos`, and
`poss` is `revised_poss`.  This is the value-semantics reading of the
function; the reference/heap reading used to analyse aliasing is given
separately below (`RefModel`).
-/

/-- One pass over `enumerate(zip(guess, answer))`, updating
`unknown_pos` and `revised_poss` exactly as the three branches of the
source do.  `answer` is carried for the `guess_c in answer` test. -/
def evalSteps (answer : List Char) :
    List (Char × Char) → Nat → List Char → Poss → List Char × Poss
  | [], _, amb, poss => (amb, poss)
  | (gc, ac) :: rest, p, amb, poss =>
    if gc = ac then
      -- green tile
      evalSteps answer rest (p + 1) (amb.filter (· ≠ gc)) (poss.set p [gc])
    else if gc ∈ answer then
      -- yellow tile
      evalSteps answer rest (p + 1) (amb ++ [gc])
        (poss.set p ((poss.getD p []).filter (· ≠ gc)))
    else
      -- gray tile
      evalSteps answer rest (p + 1) (amb.filter (· ≠ gc))
        (poss.map (fun s => s.filter (· ≠ gc)))

/-- `evaluate_guess` after the length assertion: returns
`(guess == answer, sorted deduplicated unknown_pos, revised_poss)`. -/
def evaluate_guess (guess answer : List Char) (poss : Poss) (amb : List Char) :
    Bool × List Char × Poss :=
  let r := evalSteps answer (guess.zip answer) 0 amb poss
  (guess = answer, sortedDedup r.1, r.2)

/-- `evaluate_guess` including its assertion
`assert len(guess) == len(answer) == 5`; `none` models the
`AssertionError`. -/
def evaluate_guess_checked (guess answer : List Char) (poss : Poss)
    (amb : List Char) : Option (Bool × List Char × Poss) :=
  if guess.length = answer.length ∧ answer.length = 5 then
    some (evaluate_guess guess answer poss amb)
  else
    none

/-!
## CandidateEnumerator: `enumerate_solutions` (lines 123-146)

The source builds a regular-expression string
`''.join(f"[{...sorted letters...}]" for each position) + "\n"` and runs
`re.findall` over the newline-joined sorted corpus.  We model exactly the
fragment of Python `re` that such patterns exercise: character classes
(where a `]` directly after `[` is a literal member) and literal
characters.  `re.error` is modelled by `none` from the parser.
-/

/-- An item of the compiled pattern: a character class or a literal. -/
inductive RegexItem where
  | cls (chars : List Char)
  | lit (c : Char)
deriving DecidableEq, Repr

/-- Scan the body of a character class up to the closing `]`.  Returns
the member characters and the rest of the pattern, or `none` for an
unterminated class (`re.error`). -/
def takeClassBody (acc : List Char) : List Char → Option (List Char × List Char)
  | [] => none
  | c :: rest =>
    if c = ']' then some (acc, rest) else takeClassBody (acc ++ [c]) rest

/-- Open a character class: a `]` appearing first is a literal member
(Python semantics). -/
def takeClass (l : List Char) : Option (List Char × List Char) :=
  match l with
  | [] => none
  | c :: rest =>
    if c = ']' then takeClassBody [']'] rest else takeClassBody [] (c :: rest)

theorem takeClassBody_rest_lt :
    ∀ (l : List Char) (acc body rest : List Char),
      takeClassBody acc l = some (body, rest) → rest.length < l.length := by
  intro l
  induction l with
  | nil => intro acc body rest h; simp [takeClassBody] at h
  | cons c cs ih =>
    intro acc body rest h
    by_cases hc : c = ']'
    · subst hc
      simp [takeClassBody] at h
      simp [h.2.symm]
    · simp only [takeClassBody, if_neg hc] at h
      exact Nat.lt_succ_of_lt (ih _ _ _ h)

theorem takeClass_rest_lt (l body rest : List Char)
    (h : takeClass l = some (body, rest)) : rest.length < l.length := by
  match l with
  | [] => simp [takeClass] at h
  | c :: cs =>
    by_cases hc : c = ']'
    · simp only [takeClass, if_pos hc] at h
      exact Nat.lt_succ_of_lt (takeClassBody_rest_lt _ _ _ _ h)
    · simp only [takeClass, if_neg hc] at h
      exact takeClassBody_rest_lt _ _ _ _ h

/-- Parse a pattern of the restricted fragment into items.  The
recursion consumes at least one input character per step, so the fuel
`l.length + 1` supplied by `parseItems` never runs out (running out
yields `none`, and structural recursion on the fuel keeps the function
kernel-computable). -/
def parseItemsF : Nat → List Char → Option (List RegexItem)
  | 0, _ => none
  | _ + 1, [] => some []
  | fuel + 1, c :: rest =>
    if c = '[' then
      match takeClass rest with
      | none => none
      | some (body, rest2) =>
        match parseItemsF fuel rest2 with
        | none => none
        | some items => some (RegexItem.cls body :: items)
    else
      match parseItemsF fuel rest with
      | none => none
      | some items => some (RegexItem.lit c :: items)

/-- Parse a full pattern. -/
def parseItems (l : List Char) : Option (List RegexItem) :=
  parseItemsF (l.length + 1) l

/-- Try to match the item list at the head of `text`; on success return
the matched characters and the remaining text. -/
def matchItemsAt : List RegexItem → List Char → Option (List Char × List Char)
  | [], text => some ([], text)
  | _ :: _, [] => none
  | RegexItem.lit c :: items, t :: rest =>
    if t = c then
      (matchItemsAt items rest).map (fun mr => (t :: mr.1, mr.2))
    else none
  | RegexItem.cls s :: items, t :: rest =>
    if t ∈ s then
      (matchItemsAt items rest).map (fun mr => (t :: mr.1, mr.2))
    else none

theorem matchItemsAt_append :
    ∀ (items : List RegexItem) (text m rem : List Char),
      matchItemsAt items text = some (m, rem) → text = m ++ rem := by
  intro items
  induction items with
  | nil => intro text m rem h; simp [matchItemsAt] at h; simp [h.1.symm, h.2.symm]
  | cons it its ih =>
    intro text m rem h
    match text with
    | [] => simp [matchItemsAt] at h
    | t :: rest =>
      match it with
      | RegexItem.lit c =>
        simp only [matchItemsAt] at h
        split at h
        · match h2 : matchItemsAt its rest with
          | none => rw [h2] at h; simp at h
          | some (m2, r2) =>
            rw [h2] at h
            simp at h
            have := ih rest m2 r2 h2
            rw [← h.1, ← h.2]
            simp [this]
        · simp at h
      | RegexItem.cls s =>
        simp only [matchItemsAt] at h
        split at h
        · match h2 : matchItemsAt its rest with
          | none => rw [h2] at h; simp at h
          | some (m2, r2) =>
            rw [h2] at h
            simp at h
            have := ih rest m2 r2 h2
            rw [← h.1, ← h.2]
            simp [this]
        · simp at h

/-- `re.findall` over `text` for a pattern of the restricted fragment:
scan left to right, consume each (non-overlapping) match, advance one
character when there is no match at the current position.  A zero-width
match also advances one character, as in Python.  Every step strictly
shortens the text, so the fuel `text.length + 1` supplied by `findall`
never runs out; structural recursion on the fuel keeps the function
kernel-computable. -/
def findallF (items : List RegexItem) : Nat → List Char → List (List Char)
  | 0, _ => []
  | _ + 1, [] =>
    (match matchItemsAt items [] with
     | some (m, _) => [m]
     | none => [])
  | fuel + 1, t :: rest =>
    match matchItemsAt items (t :: rest) with
    | none => findallF items fuel rest
    | some (m, rem) =>
      if m = [] then m :: findallF items fuel rest
      else m :: findallF items fuel rem

/-- `re.findall` with sufficient fuel. -/
def findall (items : List RegexItem) (text : List Char) : List (List Char) :=
  findallF items (text.length + 1) text

/-- The regex string built by `enumerate_solutions`:
`''.join(f"[{''.join(sorted(i))}]" for i in possible.values()) + "\n"`. -/
def buildRegex (poss : Poss) : List Char :=
  (poss.flatMap (fun s => '[' :: (pySortChars s ++ [']']))) ++ ['\n']

/-- `word_list_text`: the newline-joined corpus (already sorted in the
source; here the corpus list is taken as given). -/
def wordListText (corpus : List (List Char)) : List Char :=
  List.intercalate ['\n'] corpus

/-- `enumerate_solutions(possible, ambiguous_pos)` against a given
corpus.  Returns `none` when the built pattern does not compile
(`re.error`), otherwise the Counter (modelled as the joined character
list of all stripped matches, indexed by `List.count`) and the list of
stripped candidate answers. -/
def enumerate_solutions (corpus : List (List Char)) (poss : Poss)
    (ambiguous_pos : List Char) : Option (List Char × List (List Char)) :=
  match parseItems (buildRegex poss) with
  | none => none
  | some items =>
    let found := findall items (wordListText corpus)
    let possible_answers :=
      (found.filter (fun ans => ambiguous_pos.all (· ∈ ans))).map pyStrip
    some (possible_answers.flatten, possible_answers)

/-!
## ScoringPolicy: `untried_word_score` (lines 149-165) and ranking

The source comprehension
`sum([letter_frequencies[c] for i, c in enumerate(w) if ((c in untried_letters) and (c not in w[:i]))])`
is translated with an explicit prefix accumulator `pre` standing for
`w[:i]`.  `Counter[c]` is `List.count c` over the joined candidate
characters, with the Counter default of `0` for absent keys.
-/

/-- The summed term of `untried_word_score`; `pre` is the prefix
`w[:i]` of the characters already passed. -/
def untriedSum (letter_frequencies untried_letters : List Char) :
    List Char → List Char → Nat
  | [], _ => 0
  | c :: rest, pre =>
    (if c ∈ untried_letters ∧ c ∉ pre then letter_frequencies.count c else 0) +
      untriedSum letter_frequencies untried_letters rest (pre ++ [c])

/-- `len(set(w))`: the number of distinct characters of `w`. -/
def pySetLen (w : List Char) : Nat := w.dedup.length

/-- `untried_word_score(letter_frequencies, untried_letters, w)`. -/
def untried_word_score (letter_frequencies untried_letters w : List Char) : Nat :=
  untriedSum letter_frequencies untried_letters w [] * pySetLen w

/-!
## SolveDriver: `Strategy.solve_from` (strategies module, lines 95-142)
-/

/-- The `SolutionData` namedtuple.  The two possibility snapshots keep
the per-position sets (the integer keys 1..5 of the source tuples are
implicit in the list position). -/
structure SolutionData where
  Move : List Char
  InitialPossibleLetters : Poss
  KnownLettersWithUnknownPositionBeforeGuess : List Char
  PossibleLettersAfterGuess : Poss
  KnownLettersWithUnknownPositionAfterGuess : List Char
  RemainingPossibilities : Nat
  ExhaustedErroneously : Bool
  Solved : Bool
deriving DecidableEq, Repr

/-- First-occurrence deduplication with an accumulator of elements
already seen. -/
def firstDedupAux {α : Type} [DecidableEq α] (seen : List α) : List α → List α
  | [] => []
  | a :: l =>
    if a ∈ seen then firstDedupAux seen l
    else a :: firstDedupAux (seen ++ [a]) l

/-- First-occurrence deduplication: the key order a Python dict built
from a possibly repeating list ends up with, and also the order of the
first occurrences of the letters of a word. -/
def firstDedup {α : Type} [DecidableEq α] (l : List α) : List α :=
  firstDedupAux [] l

/-- Python truthiness of the optional pending guess
(`None` and the empty string are falsy). -/
def pyTruthy : Option (List Char) → Bool
  | none => false
  | some l => !l.isEmpty

/-- Strict lexicographic order on words (Python string `<`). -/
def lexLt (a b : List Char) : Prop := List.Lex (· < ·) a b

instance : DecidableRel lexLt := by
  unfold lexLt; infer_instance

/-- The weak descending-score relation the candidate sort orders by. -/
def scoreGe (a b : List Char × Nat) : Prop := b.2 ≤ a.2

instance : DecidableRel scoreGe := by
  unfold scoreGe; infer_instance

/-- Strict ranking order: higher score first, lexicographically smaller
word first among equal scores. -/
def rankRel (a b : List Char × Nat) : Prop :=
  b.2 < a.2 ∨ (a.2 = b.2 ∧ lexLt a.1 b.1)

/-- `sorted(possible_answers.items(), key=lambda kv: kv[1], reverse=True)`:
a stable descending sort on the score.  Python `sorted` is stable, and a
stable sort is uniquely determined by the comparison and the input
order, so `List.insertionSort` (which is stable) gives the same list. -/
def pySortedDescByScore (items : List (List Char × Nat)) : List (List Char × Nat) :=
  items.insertionSort scoreGe

/-- The dictionary construction plus descending sort of
`Strategy.solve_from` lines 126-127, with the word scored by `score`. -/
def rank_candidates (score : List Char → Nat) (remaining : List (List Char)) :
    List (List Char × Nat) :=
  pySortedDescByScore ((firstDedup remaining).map (fun w => (w, score w)))

/-- `''.join(i.Move for i in ret)` followed by the untried-letter
comprehension of line 124. -/
def untriedLetters (ret : List SolutionData) : List Char :=
  ascii_lowercase.filter (fun c => c ∉ (ret.map SolutionData.Move).flatten)

/-- Line 140: `guess = list(possible_answers.keys())[0]` — the word that
the driver queues as the next guess is the head of the ranked list
(`none` models the `IndexError` on an empty dict). -/
def nextQueuedGuess (ranked : List (List Char × Nat)) : Option (List Char) :=
  ranked.head?.map Prod.fst

/-- The `while not done` loop of `Strategy.solve_from`.  `fuel` bounds
the iteration count; `none` models a raised exception (`re.error` from
`enumerate_solutions`, or `IndexError` when the candidate dict is empty)
or fuel exhaustion.  `scoreFn` is the strategy `score` classmethod,
taking the letter frequencies, untried letters and word. -/
def solveLoop (corpus : List (List Char))
    (scoreFn : List Char → List Char → List Char → Nat)
    (answer : List Char) :
    Nat → Option (List Char) → Poss → List Char → List SolutionData →
      Option (List SolutionData)
  | 0, _, _, _, _ => none
  | fuel + 1, guess, possibilities, unknown_pos, ret =>
    let eval3 :=
      match guess with
      | some g =>
        if !g.isEmpty then evaluate_guess g answer possibilities unknown_pos
        else (false, unknown_pos, possibilities)
      | none => (false, unknown_pos, possibilities)
    let done := eval3.1
    let new_unknown_pos := eval3.2.1
    let new_possibilities := eval3.2.2
    let untried_letters := untriedLetters ret
    match enumerate_solutions corpus new_possibilities new_unknown_pos with
    | none => none
    | some fr =>
      let possible_answers :=
        rank_candidates (scoreFn fr.1 untried_letters) fr.2
      if pyTruthy guess then
        let done2 := if ret.length > 5 then true else done
        let move : SolutionData :=
          { Move := guess.getD []
            InitialPossibleLetters := possibilities
            KnownLettersWithUnknownPositionBeforeGuess := unknown_pos
            PossibleLettersAfterGuess := new_possibilities
            KnownLettersWithUnknownPositionAfterGuess := new_unknown_pos
            RemainingPossibilities := possible_answers.length
            ExhaustedErroneously := possibilities.any (fun v => v.isEmpty)
            Solved := done2 }
        let ret2 := ret ++ [move]
        if done2 then some ret2
        else
          match nextQueuedGuess possible_answers with
          | none => none
          | some w =>
            solveLoop corpus scoreFn answer fuel (some w)
              new_possibilities new_unknown_pos ret2
      else
        if done then some ret
        else
          match nextQueuedGuess possible_answers with
          | none => none
          | some w =>
            solveLoop corpus scoreFn answer fuel (some w)
              new_possibilities new_unknown_pos ret

/-- `Strategy.solve_from(answer, start_from, moves_made,
discovered_but_unknown_pos, constraints)`; the optional parameters
default exactly as the `or` expressions of lines 115-117 do. -/
def strategy_solve_from (corpus : List (List Char))
    (scoreFn : List Char → List Char → List Char → Nat) (fuel : Nat)
    (answer : List Char) (start_from : Option (List Char))
    (moves_made : Option (List SolutionData))
    (discovered_but_unknown_pos : Option (List Char))
    (constraints : Option Poss) : Option (List SolutionData) :=
  let possibilities := constraints.getD initPoss
  let ret := moves_made.getD []
  let unknown_pos := discovered_but_unknown_pos.getD []
  solveLoop corpus scoreFn answer fuel start_from possibilities unknown_pos ret

/-!
## FairBoundedCollection: `FairLimitedHeap` (lines 214-315)

The heap list and the `heapq` operations (`heappush`, `heappop` with
CPython `_siftdown` / `_siftup`) are modelled exactly, because
`FairLimitedHeap.push` scans `self._data` in heap-array order and the
array layout therefore matters.  Entries are `(value, item)` pairs
compared lexicographically, as Python compares tuples.
-/

/-- A heap entry `(value, item)`; items are numbered. -/
abbrev HeapEntry := Int × Nat

/-- Python `<` on `(value, item)` tuples. -/
def pyLtEntry (a b : HeapEntry) : Bool :=
  a.1 < b.1 || (a.1 = b.1 && a.2 < b.2)

/-- List indexing with a junk default (all source accesses are in
bounds). -/
def hGet (l : List HeapEntry) (i : Nat) : HeapEntry := l.getD i (0, 0)

/-- CPython `heapq._siftdown(heap, startpos, pos)`; `newitem` is the
entry being sifted toward the root.  The loop moves to the parent
position each step, so the fuel `pos + 1` supplied by `siftdown` never
runs out. -/
def siftdownF : Nat → List HeapEntry → Nat → Nat → HeapEntry → List HeapEntry
  | 0, heap, _, pos, newitem => heap.set pos newitem
  | fuel + 1, heap, startpos, pos, newitem =>
    if startpos < pos then
      let parentpos := (pos - 1) / 2
      let parent := hGet heap parentpos
      if pyLtEntry newitem parent then
        siftdownF fuel (heap.set pos parent) startpos parentpos newitem
      else heap.set pos newitem
    else heap.set pos newitem

/-- CPython `heapq._siftdown` with sufficient fuel. -/
def siftdown (heap : List HeapEntry) (startpos pos : Nat) (newitem : HeapEntry) :
    List HeapEntry :=
  siftdownF (pos + 1) heap startpos pos newitem

/-- The child-promoting loop of CPython `heapq._siftup`; returns the
updated heap and the final leaf position.  The position strictly grows
toward `endpos`, so the fuel `endpos + 1` supplied by `siftup` never
runs out. -/
def siftupLoopF : Nat → List HeapEntry → Nat → Nat → List HeapEntry × Nat
  | 0, heap, pos, _ => (heap, pos)
  | fuel + 1, heap, pos, endpos =>
    if 2 * pos + 1 < endpos then
      let childpos := 2 * pos + 1
      let rightpos := childpos + 1
      if rightpos < endpos ∧
          pyLtEntry (hGet heap childpos) (hGet heap rightpos) = false then
        siftupLoopF fuel (heap.set pos (hGet heap rightpos)) rightpos endpos
      else
        siftupLoopF fuel (heap.set pos (hGet heap childpos)) childpos endpos
    else (heap, pos)

/-- CPython `heapq._siftup(heap, pos)`. -/
def siftup (heap : List HeapEntry) (pos : Nat) : List HeapEntry :=
  let newitem := hGet heap pos
  let hp := siftupLoopF (heap.length + 1) heap pos heap.length
  siftdown hp.1 pos hp.2 newitem

/-- CPython `heapq.heappush`. -/
def heappush (heap : List HeapEntry) (item : HeapEntry) : List HeapEntry :=
  siftdown (heap ++ [item]) 0 heap.length item

/-- CPython `heapq.heappop`: returns the popped entry and the new heap;
`none` models the `IndexError` on an empty heap. -/
def heappop (heap : List HeapEntry) : Option (HeapEntry × List HeapEntry) :=
  match heap.getLast? with
  | none => none
  | some lastelt =>
    match heap.dropLast with
    | [] => some (lastelt, [])
    | r0 :: rrest => some (r0, siftup ((r0 :: rrest).set 0 lastelt) 0)

/-- The `FairLimitedHeap` object: soft limit and backing list. -/
structure FairLimitedHeap where
  soft_limit : Nat
  data : List HeapEntry
deriving DecidableEq, Repr

/-- An empty `FairLimitedHeap(soft_limit)`. -/
def FairLimitedHeap.empty (soft_limit : Nat) : FairLimitedHeap :=
  { soft_limit := soft_limit, data := [] }

/-- The scan of `FairLimitedHeap.push` lines 291-295: walk `self._data`
in array order and stop at the first entry whose value differs from
`self._data[0]`; if none differs, the loop leaves `index` at the last
position. -/
def scanBreakIndex (data : List HeapEntry) : Nat :=
  match data with
  | [] => 0
  | d0 :: rest =>
    match rest.findIdx? (fun e => decide (e.1 ≠ d0.1)) with
    | some j => j + 1
    | none => data.length - 1

/-- `for i in range(index): heapq.heappop(self._data)`. -/
def popN : Nat → List HeapEntry → List HeapEntry
  | 0, h => h
  | n + 1, h =>
    match heappop h with
    | none => h
    | some pr => popN n pr.2

/-- `FairLimitedHeap.push(item, value)` (lines 284-299). -/
def FairLimitedHeap.push (st : FairLimitedHeap) (item : Nat) (value : Int) :
    FairLimitedHeap :=
  let data := heappush st.data (value, item)
  if data.length ≤ st.soft_limit then { st with data := data }
  else
    let index := scanBreakIndex data
    if st.soft_limit ≤ data.length - index then
      { st with data := popN index data }
    else { st with data := data }

/-!
## Reference-semantics model of `evaluate_guess` (for the aliasing
analysis of the constraint dictionary)

`revised_poss = dict(possibilities)` copies only the position-to-object
map; the set objects are shared with the caller.  A store `cells` maps
addresses to set contents and a dictionary is a list of five addresses.
The green branch rebinds a position to a freshly allocated set, the gray
branch builds a brand-new dict of freshly allocated sets, but the yellow
branch calls `discard` on the shared object in place.
-/

namespace RefModel

/-- The position-indexed loop of `evaluate_guess` over the store. -/
def evalStepsRef (answer : List Char) :
    List (Char × Char) → Nat → List Char → List Nat → List (List Char) →
      List Char × List Nat × List (List Char)
  | [], _, amb, dict, cells => (amb, dict, cells)
  | (gc, ac) :: rest, p, amb, dict, cells =>
    if gc = ac then
      -- revised_poss[1+pos] = set(guess_c): fresh object
      evalStepsRef answer rest (p + 1) (amb.filter (· ≠ gc))
        (dict.set p cells.length) (cells ++ [[gc]])
    else if gc ∈ answer then
      -- revised_poss[1+pos].discard(guess_c): in-place on the shared object
      let addr := dict.getD p 0
      evalStepsRef answer rest (p + 1) (amb ++ [gc]) dict
        (cells.set addr ((cells.getD addr []).filter (· ≠ gc)))
    else
      -- a new dict comprehension of new set objects
      let vals := dict.map (fun a => (cells.getD a []).filter (· ≠ gc))
      evalStepsRef answer rest (p + 1) (amb.filter (· ≠ gc))
        ((List.range vals.length).map (fun i => cells.length + i)) (cells ++ vals)

/-- `evaluate_guess` over the store: the caller passes the dictionary
`dict` (its `possibilities`); `dict(possibilities)` shares all cells, so
the callee starts from the same address list. -/
def evaluate_guess_ref (guess answer : List Char) (dict : List Nat)
    (cells : List (List Char)) (amb : List Char) :
    Bool × List Char × List Nat × List (List Char) :=
  let r := evalStepsRef answer (guess.zip answer) 0 amb dict cells
  (guess = answer, sortedDedup r.1, r.2)

/-- What the caller sees through its retained reference: the contents of
its own dictionary cells in the final store. -/
def view (dict : List Nat) (cells : List (List Char)) : List (List Char) :=
  dict.map (fun a => cells.getD a [])

end RefModel

/-!
## `SpecifyInitialGuessesMixIn.solve_from` (lines 213-264) and
`BailEarlyByPercentageReductionMixIn._abort_early` (lines 305-312)
-/

/-- The three ways a Python strategy `solve_from` call can end: with an
exception, with the value `None` (the "not applicable" signal, and also
the implicit return of the mix-in loop), or with a trace tuple. -/
inductive PyResult where
  | exn
  | pynone
  | val (trace : List SolutionData)
deriving DecidableEq, Repr

/-- `tuple(x)` applied to a delegate result: a trace stays a trace, an
exception propagates (and `tuple(None)` would itself raise). -/
def tupleWrap : Option (List SolutionData) → PyResult
  | none => PyResult.exn
  | some t => PyResult.val t

/-- The `while guesses and not done` loop of
`SpecifyInitialGuessesMixIn.solve_from`.  `delegate` is
`cls._delegation_class().solve_from` and `abortFn` is
`cls._abort_early` (the base class always answers `False`).  Falling
out of the loop returns Python `None`. -/
def mixinLoop
    (delegate : List Char → Option (List Char) → List SolutionData →
      List Char → Option Poss → Option (List SolutionData))
    (scoreFn : List Char → List Char → List Char → Nat)
    (abortFn : List SolutionData → List Char → List (List Char) → Bool)
    (corpus : List (List Char)) (initial_tries_len : Nat)
    (answer : List Char) :
    Nat → List (List Char) → Poss → List Char → List SolutionData → PyResult
  | 0, _, _, _, _ => PyResult.exn
  | fuel + 1, guesses, possibilities, unknown_pos, ret =>
    match guesses with
    | [] => PyResult.pynone
    | guess :: guesses2 =>
      if guesses2 = [] then
        -- `return tuple(cls._delegation_class().solve_from(answer, guess,
        --  ret, unknown_pos))`: the constraints argument is not passed
        tupleWrap (delegate answer (some guess) ret unknown_pos none)
      else
        let eval3 := evaluate_guess guess answer possibilities unknown_pos
        let done := eval3.1
        let new_unknown_pos := eval3.2.1
        let new_possibilities := eval3.2.2
        let untried_letters := untriedLetters ret
        match enumerate_solutions corpus new_possibilities new_unknown_pos with
        | none => PyResult.exn
        | some fr =>
          let possible_answers := rank_candidates (scoreFn fr.1 untried_letters) fr.2
          let done2 := if ret.length > 5 then true else done
          let move : SolutionData :=
            { Move := guess
              InitialPossibleLetters := possibilities
              KnownLettersWithUnknownPositionBeforeGuess := unknown_pos
              PossibleLettersAfterGuess := new_possibilities
              KnownLettersWithUnknownPositionAfterGuess := new_unknown_pos
              RemainingPossibilities := possible_answers.length
              ExhaustedErroneously := possibilities.any (fun v => v.isEmpty)
              Solved := done2 }
          let ret2 := ret ++ [move]
          let possibilities2 := if done2 then possibilities else new_possibilities
          let unknown2 := if done2 then unknown_pos else new_unknown_pos
          if ret2.length < initial_tries_len ∧ abortFn ret2 unknown2 fr.2 then
            tupleWrap (delegate answer none ret2 unknown2 (some possibilities2))
          else if done2 then PyResult.pynone
          else
            mixinLoop delegate scoreFn abortFn corpus initial_tries_len answer
              fuel guesses2 possibilities2 unknown2 ret2

/-- `SpecifyInitialGuessesMixIn.solve_from(answer, start_from,
moves_made, discovered_but_unknown_pos, constraints)`. -/
def mixin_solve_from
    (delegate : List Char → Option (List Char) → List SolutionData →
      List Char → Option Poss → Option (List SolutionData))
    (scoreFn : List Char → List Char → List Char → Nat)
    (abortFn : List SolutionData → List Char → List (List Char) → Bool)
    (corpus : List (List Char)) (initial_tries : List (List Char))
    (fuel : Nat) (answer : List Char) (start_from : Option (List Char))
    (moves_made : Option (List SolutionData))
    (discovered_but_unknown_pos : Option (List Char))
    (constraints : Option Poss) : PyResult :=
  match start_from with
  | none => PyResult.exn  -- assert start_from is not None
  | some start =>
    if initial_tries ≠ [] ∧ initial_tries.head? ≠ some start then
      PyResult.pynone
    else
      mixinLoop delegate scoreFn abortFn corpus initial_tries.length answer
        fuel initial_tries (constraints.getD initPoss)
        (discovered_but_unknown_pos.getD []) (moves_made.getD [])

/-- `SpecifyInitialGuessesMixIn._abort_early`: the default predicate
never aborts. -/
def defaultAbortEarly : List SolutionData → List Char → List (List Char) → Bool :=
  fun _ _ _ => false

/-- The `BailEarlyByPercentageReductionMixIn` class object: the class
body merely stores `reduction_needed_to_abort` (set on subclasses, or
left `None` on the abstract class).  Thresholds are modelled as
rationals; the source values are float literals, and the two asserted
comparisons and the final comparison are exact in both readings. -/
structure BailEarlyByPercentageReduction where
  reduction_needed_to_abort : Option ℚ
deriving DecidableEq

/-- Constructing (declaring or instantiating) a percentage-reduction
strategy class: no validation of any kind runs; the threshold is simply
recorded. -/
def mkBailEarlyStrategy (t : Option ℚ) : BailEarlyByPercentageReduction :=
  { reduction_needed_to_abort := t }

/-- `BailEarlyByPercentageReductionMixIn._abort_early(moves,
known_letters_with_unknown_pos, possibilities)`; the two source
assertions run here, on each call, and `.error` models the
`AssertionError`.  `corpus` stands for `wu.known_five_letter_words`. -/
def BailEarlyByPercentageReduction.abort_early
    (cfg : BailEarlyByPercentageReduction) (_moves : List SolutionData)
    (_known_letters_with_unknown_pos : List Char)
    (possibilities : List (List Char)) (corpus : List (List Char)) :
    Except String Bool :=
  match cfg.reduction_needed_to_abort with
  | none => Except.error "does not specify the amount of space reduction needed"
  | some t =>
    if 0 ≤ t ∧ t ≤ 1 then
      Except.ok (decide ((possibilities.length : ℚ) < (1 - t) * corpus.length))
    else
      Except.error "reduction_needed_to_abort value that is not between zero and 1"

/-!
## Derived definitions used in the statements
-/

/-- The character list of a string literal. -/
def strChars (s : String) : List Char := s.data

/-- The specification invariant for a Word: exactly five lowercase
alphabetic characters. -/
def isValidWordleWord (w : List Char) : Prop :=
  w.length = 5 ∧ ∀ c ∈ w, c ∈ ascii_lowercase

instance (w : List Char) : Decidable (isValidWordleWord w) := by
  unfold isValidWordleWord; infer_instance

/-- Threading `evaluate_guess` along a sequence of guesses from the
initial all-letters-possible, empty-unplaced state (the constraint
history of a solve for a fixed answer). -/
def applyGuesses (answer : List Char) (guesses : List (List Char)) :
    Poss × List Char :=
  guesses.foldl
    (fun st g =>
      let r := evaluate_guess g answer st.1 st.2
      (r.2.2, r.2.1))
    (initPoss, [])

/-- The MaxInformation score exactly as the specification words it:
the sum of `frequency[c]` over each letter `c` of the candidate that is
in the untried letters and is the first occurrence of `c` within the
candidate, multiplied by the count of distinct letters in the
candidate. -/
def maxInformationScoreSpec (freq untried w : List Char) : Nat :=
  (((firstDedup w).filter (· ∈ untried)).map (fun c => freq.count c)).sum *
    (firstDedup w).length

/-- The pattern shape every regex built by `enumerate_solutions`
compiles to: one class per position plus the literal newline. -/
def classPattern (clss : List (List Char)) : List RegexItem :=
  clss.map RegexItem.cls ++ [RegexItem.lit '\n']

/-- Whether an `Except` carries an error. -/
def exceptIsError : Except String Bool → Bool
  | Except.error _ => true
  | Except.ok _ => false

/-- The corpus of the bounded-solve counterexample: eight words sharing
their first four letters. -/
def wordLadderCorpus : List (List Char) :=
  [strChars "abcde", strChars "abcdf", strChars "abcdg", strChars "abcdh",
   strChars "abcdi", strChars "abcdj", strChars "abcdk", strChars "abcdl"]

/-- The corpus of the degenerate-pattern counterexample. -/
def gapCorpus : List (List Char) :=
  [strChars "xabcd", strChars "zzzzz"]

/-!
## Claim theorems (concrete divergences)
-/

/-- C1: the spec says the prior ConstraintState passed to
`evaluate_guess` is never mutated in place, so a caller retaining the
old reference still sees the pre-call possible-letter sets.  The code
contradicts this (and its own docstring): `dict(possibilities)` is a
shallow copy, and the yellow-tile branch calls `discard` on the shared
set object.  With guess `crane` against answer `bacon`, the caller of
the store-level model retains its dictionary `[0,1,2,3,4]` over the
initial cells, and after the call its position-1 set has lost the
letter `c`. -/
theorem evaluate_guess_mutates_prior_state :
    (RefModel.view [0, 1, 2, 3, 4]
        (RefModel.evaluate_guess_ref (strChars "crane") (strChars "bacon")
            [0, 1, 2, 3, 4] initPoss []).2.2.2
      ≠ RefModel.view [0, 1, 2, 3, 4] initPoss)
  ∧ ('c' ∈ (RefModel.view [0, 1, 2, 3, 4] initPoss).getD 0 [])
  ∧ ('c' ∉ (RefModel.view [0, 1, 2, 3, 4]
        (RefModel.evaluate_guess_ref (strChars "crane") (strChars "bacon")
            [0, 1, 2, 3, 4] initPoss []).2.2.2).getD 0 []) := by
  decide

/-- C2: the spec says a `FairLimitedHeap` push never evicts only some of
the items sharing the lowest score.  The code scans `self._data` in
heap-array order rather than sorted order, so with soft limit 3 and
pushes of (item 0, score 1), (item 1, score 5), (item 2, score 1),
(item 3, score 7) — the heap array is [(1,0),(5,1),(1,2),(7,3)] — the
scan stops at index 1 and evicts exactly one of the two items scoring 1,
retaining the other. -/
theorem fairLimitedHeap_push_splits_lowest_tie_group :
    ((((((FairLimitedHeap.empty 3).push 0 1).push 1 5).push 2 1).push 3 7).data
        = [(1, 2), (5, 1), (7, 3)])
  ∧ ((1, 0) ∉ ((((((FairLimitedHeap.empty 3).push 0 1).push 1 5).push 2 1).push 3 7).data))
  ∧ ((1, 2) ∈ ((((((FairLimitedHeap.empty 3).push 0 1).push 1 5).push 2 1).push 3 7).data)) := by
  decide

/-- C3: the spec says that when the trace exceeds 6 moves without the
guess equalling the answer the solve terminates as ExhaustedErroneously
with the final move not marked Solved.  In the code, `solve_from` sets
`done = True` when `len(ret) > 5` and then records the final move with
`Solved=done`: over the eight-word ladder corpus with answer `abcdl`
and start `abcde`, the run makes 7 moves, the last guess `abcdk` is not
the answer, and the final move is recorded with Solved=True and
ExhaustedErroneously=False. -/
theorem solve_from_overlong_trace_marked_solved :
    (((strategy_solve_from wordLadderCorpus untried_word_score 10
          (strChars "abcdl") (some (strChars "abcde")) none none none).map
        (fun t => (t.length,
          t.getLast?.map (fun m => (m.Move, m.Solved, m.ExhaustedErroneously)))))
      = some (7, some (strChars "abcdk", true, false)))
  ∧ strChars "abcdk" ≠ strChars "abcdl" := by
  decide

/-- C4: the spec says that with an empty possible set at some position
the pattern matches nothing, `candidates` is empty, and the call returns
normally.  In the code the f-string then contains `[]`, which Python
`re` does not read as an empty class: with position 1 empty the pattern
`[][a][b][c][d]\n` parses as four classes and matches 4-character
fragments (here the garbage candidate `abcd`, not a corpus word), and
with position 5 empty the pattern ends `[]\n` and `re.compile` raises
`re.error` (modelled by `none`). -/
theorem enumerate_solutions_empty_position_garbage :
    (enumerate_solutions gapCorpus
        [[], strChars "a", strChars "b", strChars "c", strChars "d"] []
      = some (strChars "abcd", [strChars "abcd"]))
  ∧ (strChars "abcd" ∉ gapCorpus)
  ∧ (enumerate_solutions gapCorpus
        [strChars "a", strChars "b", strChars "c", strChars "d", []] []
      = none) := by
  decide

/-- C6 (counterexample): the spec says any word that is not exactly 5
lowercase alphabetic characters fails the call with InvalidWordError.
The only check in `evaluate_guess` is `len(guess) == len(answer) == 5`,
so the uppercase pair `ABCDE` / `FGHIJ` — neither a valid Word — is
accepted without error. -/
theorem evaluate_guess_accepts_nonlowercase :
    ((evaluate_guess_checked (strChars "ABCDE") (strChars "FGHIJ") initPoss []).isSome
        = true)
  ∧ ¬ isValidWordleWord (strChars "ABCDE")
  ∧ ¬ isValidWordleWord (strChars "FGHIJ") := by
  decide

/-- C6 (amended): `evaluate_guess` fails (via its assertion) exactly
when the two lengths are not both 5; character content is never
checked.  (`enumerate_solutions` performs no word validation at all —
it does not take words as input.) -/
theorem evaluate_guess_checked_length_only (guess answer : List Char)
    (poss : Poss) (amb : List Char) :
    (evaluate_guess_checked guess answer poss amb).isSome
      ↔ (guess.length = answer.length ∧ answer.length = 5) := by
  unfold evaluate_guess_checked
  split <;> simp_all

/-- C7 (counterexample): the spec says a percentage-reduction-abort
policy with a threshold outside [0,1] or unset fails with
ConfigurationError at construction time.  Construction runs no checks
at all — it succeeds and records the invalid threshold 2 — and the
assertions only fire when `_abort_early` is called during a solve. -/
theorem bail_early_invalid_threshold_construction_succeeds :
    ((mkBailEarlyStrategy (some 2)).reduction_needed_to_abort = some 2)
  ∧ (exceptIsError ((mkBailEarlyStrategy (some 2)).abort_early [] [] [] []) = true)
  ∧ (exceptIsError ((mkBailEarlyStrategy none).abort_early [] [] [] []) = true) := by
  refine ⟨rfl, ?_, rfl⟩
  simp [mkBailEarlyStrategy, BailEarlyByPercentageReduction.abort_early,
    exceptIsError]

/-- C7 (amended): construction of a percentage-reduction policy always
succeeds, whatever the threshold; the validation happens on each call of
the abort predicate during a solve, which raises (AssertionError) iff
the threshold is unset or outside [0,1]. -/
theorem bail_early_checks_at_call_time (t : ℚ) (moves : List SolutionData)
    (known : List Char) (poss corpus : List (List Char)) :
    ((mkBailEarlyStrategy (some t)).reduction_needed_to_abort = some t)
  ∧ (exceptIsError
        ((mkBailEarlyStrategy (some t)).abort_early moves known poss corpus) = false
      ↔ (0 ≤ t ∧ t ≤ 1))
  ∧ (exceptIsError
        ((mkBailEarlyStrategy none).abort_early moves known poss corpus) = true) := by
  refine ⟨rfl, ?_, rfl⟩
  simp only [mkBailEarlyStrategy, BailEarlyByPercentageReduction.abort_early]
  split <;> simp_all [exceptIsError]

/-- C10: when a fixed-opening strategy reaches its last opening guess it
hands control to the delegate without passing the accumulated
constraints: the delegated `solve_from` is invoked with only the answer,
the last opening guess, the move trace and the unplaced-known letters,
its constraints argument left unpassed, and `Strategy.solve_from` with
no constraints starts from the all-letters-possible state. -/
theorem fixed_opening_handover_discards_constraints :
    (∀ (delegate : List Char → Option (List Char) → List SolutionData →
          List Char → Option Poss → Option (List SolutionData))
       (scoreFn : List Char → List Char → List Char → Nat)
       (corpus : List (List Char)) (answer g : List Char) (fuel : Nat)
       (moves : Option (List SolutionData)) (unknown : Option (List Char))
       (constraints : Option Poss),
       mixin_solve_from delegate scoreFn defaultAbortEarly corpus [g] (fuel + 1)
           answer (some g) moves unknown constraints
         = tupleWrap (delegate answer (some g) (moves.getD []) (unknown.getD []) none))
  ∧ (∀ corpus scoreFn fuel answer s moves unknown,
       strategy_solve_from corpus scoreFn fuel answer s moves unknown none
         = strategy_solve_from corpus scoreFn fuel answer s moves unknown
             (some initPoss)) := by
  constructor
  · intro delegate scoreFn corpus answer g fuel moves unknown constraints
    simp [mixin_solve_from, mixinLoop]
  · intro corpus scoreFn fuel answer s moves unknown
    rfl

/-!
## C9: the MaxInformation score formula
-/

theorem firstDedupAux_congr {α : Type} [DecidableEq α] (l : List α) :
    ∀ seen seen' : List α, (∀ x, x ∈ seen ↔ x ∈ seen') →
      firstDedupAux seen l = firstDedupAux seen' l := by
  induction l with
  | nil => intro seen seen' _; rfl
  | cons a l ih =>
    intro seen seen' hmem
    simp only [firstDedupAux]
    by_cases ha : a ∈ seen
    · rw [if_pos ha, if_pos ((hmem a).mp ha)]
      exact ih _ _ hmem
    · rw [if_neg ha, if_neg (fun h => ha ((hmem a).mpr h))]
      congr 1
      apply ih
      intro x
      simp only [List.mem_append, List.mem_singleton, hmem x]

theorem mem_firstDedupAux {α : Type} [DecidableEq α] (l : List α) :
    ∀ (seen : List α) (x : α),
      x ∈ firstDedupAux seen l ↔ (x ∈ l ∧ x ∉ seen) := by
  induction l with
  | nil => intro seen x; simp [firstDedupAux]
  | cons a l ih =>
    intro seen x
    simp only [firstDedupAux]
    by_cases ha : a ∈ seen
    · rw [if_pos ha, ih]
      simp only [List.mem_cons]
      constructor
      · rintro ⟨h1, h2⟩; exact ⟨Or.inr h1, h2⟩
      · rintro ⟨h1 | h1, h2⟩
        · exact absurd (h1 ▸ ha) h2
        · exact ⟨h1, h2⟩
    · rw [if_neg ha]
      simp only [List.mem_cons, ih, List.mem_append, List.mem_singleton]
      by_cases hxa : x = a
      · subst hxa; tauto
      · tauto

theorem nodup_firstDedupAux {α : Type} [DecidableEq α] (l : List α) :
    ∀ seen : List α, (firstDedupAux seen l).Nodup := by
  induction l with
  | nil => intro seen; simp [firstDedupAux]
  | cons a l ih =>
    intro seen
    simp only [firstDedupAux]
    by_cases ha : a ∈ seen
    · rw [if_pos ha]; exact ih seen
    · rw [if_neg ha]
      refine List.Nodup.cons ?_ (ih (seen ++ [a]))
      intro hmem
      have := (mem_firstDedupAux l (seen ++ [a]) a).mp hmem
      exact this.2 (by simp)

theorem untriedSum_eq (freq untried : List Char) :
    ∀ (w pre : List Char),
      untriedSum freq untried w pre
        = (((firstDedupAux pre w).filter (fun c => c ∈ untried)).map
            (fun c => freq.count c)).sum := by
  intro w
  induction w with
  | nil => intro pre; simp [untriedSum, firstDedupAux]
  | cons c rest ih =>
    intro pre
    simp only [untriedSum, firstDedupAux]
    by_cases hc : c ∈ pre
    · rw [if_neg (fun h => h.2 hc), if_pos hc, ih, Nat.zero_add]
      have hcongr : firstDedupAux (pre ++ [c]) rest = firstDedupAux pre rest := by
        apply firstDedupAux_congr
        intro x
        simp only [List.mem_append, List.mem_singleton]
        constructor
        · rintro (h | rfl)
          · exact h
          · exact hc
        · exact Or.inl
      rw [hcongr]
    · rw [if_neg hc]
      by_cases hu : c ∈ untried
      · rw [if_pos ⟨hu, hc⟩, ih]
        simp [List.filter_cons, hu]
      · rw [if_neg (fun h => hu h.1), ih]
        simp [List.filter_cons, hu]

theorem pySetLen_eq_firstDedup_length (w : List Char) :
    pySetLen w = (firstDedup w).length := by
  have h2 : (firstDedup w).toFinset = w.toFinset := by
    ext x
    simp [List.mem_toFinset, firstDedup, mem_firstDedupAux]
  have h3 : (firstDedup w).toFinset.card = (firstDedup w).length :=
    List.toFinset_card_of_nodup (nodup_firstDedupAux w [])
  have h1 : w.toFinset.card = w.dedup.length := List.card_toFinset w
  unfold pySetLen
  rw [← h1, ← h2, h3]

/-- C9: `untried_word_score` computes exactly the MaxInformation formula
of the specification: the sum of `frequency[c]` over the letters `c` of
the candidate that are untried and first occurrences within the
candidate, multiplied by the number of distinct letters of the
candidate. -/
theorem untried_word_score_eq_spec (freq untried w : List Char) :
    untried_word_score freq untried w = maxInformationScoreSpec freq untried w := by
  unfold untried_word_score maxInformationScoreSpec
  rw [untriedSum_eq, pySetLen_eq_firstDedup_length]
  rfl

/-!
## C8: ranking is sorted descending, ties broken lexicographically
-/

theorem lexLt_irrefl : ∀ a : List Char, ¬ lexLt a a := by
  intro a
  induction a with
  | nil => intro h; cases h
  | cons c l ih =>
    intro h
    cases h with
    | cons h => exact ih h
    | rel h => exact lt_irrefl c h

theorem firstDedupAux_eq_self {α : Type} [DecidableEq α] :
    ∀ (l seen : List α), l.Nodup → (∀ x ∈ l, x ∉ seen) →
      firstDedupAux seen l = l := by
  intro l
  induction l with
  | nil => intro seen _ _; rfl
  | cons a l ih =>
    intro seen hnd hdisj
    simp only [firstDedupAux]
    rw [if_neg (hdisj a (List.mem_cons_self a l))]
    congr 1
    apply ih _ (List.Nodup.of_cons hnd)
    intro x hx
    simp only [List.mem_append, List.mem_singleton]
    rintro (h | rfl)
    · exact hdisj x (List.mem_cons_of_mem a hx) h
    · exact (List.nodup_cons.mp hnd).1 hx

theorem firstDedup_eq_self {α : Type} [DecidableEq α] (l : List α)
    (h : l.Nodup) : firstDedup l = l :=
  firstDedupAux_eq_self l [] h (by intro x _ hx; cases hx)

theorem orderedInsert_pairwise_rankRel (a : List Char × Nat) :
    ∀ s : List (List Char × Nat), s.Pairwise rankRel →
      (∀ x ∈ s, lexLt a.1 x.1) →
      (List.orderedInsert scoreGe a s).Pairwise rankRel := by
  intro s
  induction s with
  | nil =>
    intro _ _
    simp [List.orderedInsert]
  | cons b t ih =>
    intro hp hlex
    have hp1 : ∀ x ∈ t, rankRel b x := (List.pairwise_cons.mp hp).1
    have hp2 : t.Pairwise rankRel := (List.pairwise_cons.mp hp).2
    simp only [List.orderedInsert]
    by_cases hab : scoreGe a b
    · have hab' : b.2 ≤ a.2 := hab
      rw [if_pos hab]
      refine List.pairwise_cons.mpr ⟨?_, hp⟩
      intro x hx
      have hxba : x = b ∨ x ∈ t := List.mem_cons.mp hx
      have hxle : x.2 ≤ a.2 := by
        rcases hxba with rfl | hxt
        · exact hab'
        · have hbx := hp1 x hxt
          have hxb : x.2 ≤ b.2 := by
            rcases hbx with h | h
            · exact Nat.le_of_lt h
            · exact Nat.le_of_eq h.1.symm
          exact Nat.le_trans hxb hab'
      rcases Nat.lt_or_ge x.2 a.2 with hlt | hge
      · exact Or.inl hlt
      · exact Or.inr ⟨Nat.le_antisymm hge hxle, hlex x hx⟩
    · rw [if_neg hab]
      have halt : a.2 < b.2 := Nat.lt_of_not_le (fun h => hab h)
      refine List.pairwise_cons.mpr ⟨?_, ?_⟩
      · intro x hx
        rcases (List.mem_orderedInsert scoreGe).mp hx with rfl | hxt
        · exact Or.inl halt
        · exact hp1 x hxt
      · exact ih hp2 (fun x hx => hlex x (List.mem_cons_of_mem b hx))

theorem insertionSort_pairwise_rankRel :
    ∀ items : List (List Char × Nat),
      items.Pairwise (fun x y => lexLt x.1 y.1) →
      (List.insertionSort scoreGe items).Pairwise rankRel := by
  intro items
  induction items with
  | nil => intro _; simp [List.insertionSort]
  | cons a l ih =>
    intro hp
    have h1 : ∀ x ∈ l, lexLt a.1 x.1 := (List.pairwise_cons.mp hp).1
    have h2 : l.Pairwise (fun x y => lexLt x.1 y.1) := (List.pairwise_cons.mp hp).2
    simp only [List.insertionSort]
    apply orderedInsert_pairwise_rankRel
    · exact ih h2
    · intro x hx
      exact h1 x ((List.mem_insertionSort scoreGe).mp hx)

/-- C8: for any frequency tally, untried-letter set and
lexicographically ordered candidate list (the corpus-scan order that
`enumerate_solutions` produces), the ranked list built on a driver step
is sorted strictly: descending by MaxInformation score with every tie
between equal scores broken by ascending lexicographic word order; the
word the driver queues as the next guess is the head of that list, and
its score dominates every ranked candidate. -/
theorem ranked_candidates_sorted_desc_lex_ties (freq untried : List Char)
    (cands : List (List Char)) (hlex : cands.Pairwise lexLt) :
    ((rank_candidates (untried_word_score freq untried) cands).Pairwise rankRel)
  ∧ (nextQueuedGuess (rank_candidates (untried_word_score freq untried) cands)
      = (rank_candidates (untried_word_score freq untried) cands).head?.map Prod.fst)
  ∧ (∀ w s, (rank_candidates (untried_word_score freq untried) cands).head?
        = some (w, s) →
      ∀ p ∈ rank_candidates (untried_word_score freq untried) cands, p.2 ≤ s) := by
  have hnodup : cands.Nodup := by
    refine List.Pairwise.imp ?_ hlex
    intro x y hxy heq
    exact lexLt_irrefl x (heq ▸ hxy)
  have hsorted :
      (rank_candidates (untried_word_score freq untried) cands).Pairwise rankRel := by
    unfold rank_candidates pySortedDescByScore
    rw [firstDedup_eq_self cands hnodup]
    apply insertionSort_pairwise_rankRel
    rw [List.pairwise_map]
    exact hlex
  refine ⟨hsorted, rfl, ?_⟩
  intro w s hhead p hp
  cases hranked : rank_candidates (untried_word_score freq untried) cands with
  | nil => rw [hranked] at hp; cases hp
  | cons q rest =>
    rw [hranked] at hhead hp hsorted
    simp only [List.head?_cons, Option.some_inj] at hhead
    rcases List.mem_cons.mp hp with rfl | hprest
    · rw [hhead]
    · have hq := (List.pairwise_cons.mp hsorted).1 p hprest
      rw [hhead] at hq
      rcases hq with h | h
      · exact Nat.le_of_lt h
      · exact Nat.le_of_eq h.1.symm

/-- Witness for C8 at a concrete lexicographically sorted candidate
list. -/
theorem ranked_candidates_sorted_desc_lex_ties_witness :
    (([strChars "apple", strChars "berry", strChars "cider"] :
        List (List Char)).Pairwise lexLt)
  ∧ (((rank_candidates
          (untried_word_score (strChars "aabce") (strChars "abc"))
          [strChars "apple", strChars "berry", strChars "cider"]).Pairwise rankRel)
    ∧ (nextQueuedGuess (rank_candidates
          (untried_word_score (strChars "aabce") (strChars "abc"))
          [strChars "apple", strChars "berry", strChars "cider"])
        = (rank_candidates
            (untried_word_score (strChars "aabce") (strChars "abc"))
            [strChars "apple", strChars "berry", strChars "cider"]).head?.map Prod.fst)
    ∧ (∀ w s, (rank_candidates
            (untried_word_score (strChars "aabce") (strChars "abc"))
            [strChars "apple", strChars "berry", strChars "cider"]).head?
          = some (w, s) →
        ∀ p ∈ rank_candidates
            (untried_word_score (strChars "aabce") (strChars "abc"))
            [strChars "apple", strChars "berry", strChars "cider"], p.2 ≤ s)) :=
  ⟨by decide,
   ranked_candidates_sorted_desc_lex_ties (strChars "aabce") (strChars "abc")
     [strChars "apple", strChars "berry", strChars "cider"] (by decide)⟩

/-!
## C5: monotonic narrowing of the candidate set

The chain of lemmas: (1) `evaluate_guess` preserves the reachable-state
invariant (the answer letter stays possible at every position, the
unplaced-known letters occur in the answer, all set members are
lowercase) and only ever shrinks the per-position sets; (2) letters
dropped from the unplaced-known set are letters any later-consistent
word must contain anyway; (3) the built pattern parses to one class per
position; (4) `findall` over the same text with pointwise-smaller
classes yields a sublist of the matches.
-/

theorem getD_set_poss (l : Poss) (i j : Nat) (a : List Char) :
    (l.set i a).getD j [] =
      if i = j ∧ i < l.length then a else l.getD j [] := by
  rw [List.getD_eq_getElem?_getD, List.getElem?_set, List.getD_eq_getElem?_getD]
  by_cases hij : i = j
  · subst hij
    by_cases hi : i < l.length
    · simp [hi]
    · have : l[i]? = none := by
        rw [List.getElem?_eq_none_iff]
        omega
      simp [hi, this]
  · simp [hij]

theorem getD_map_of_lt (l : Poss) (f : List Char → List Char) (j : Nat)
    (hj : j < l.length) : (l.map f).getD j [] = f (l.getD j []) := by
  rw [List.getD_eq_getElem?_getD, List.getElem?_map, List.getD_eq_getElem?_getD,
    List.getElem?_eq_getElem hj]
  rfl

theorem getD_eq_nil_of_ge (l : Poss) (j : Nat) (hj : l.length ≤ j) :
    l.getD j [] = [] := by
  rw [List.getD_eq_getElem?_getD]
  have : l[j]? = none := by
    rw [List.getElem?_eq_none_iff]
    omega
  simp [this]

theorem getD_mem_self {α : Type} (l : List α) (j : Nat) (d : α)
    (hj : j < l.length) : l.getD j d ∈ l := by
  rw [List.getD_eq_getElem?_getD, List.getElem?_eq_getElem hj]
  exact List.getElem_mem hj

theorem mem_pySortChars (c : Char) (s : List Char) :
    c ∈ pySortChars s ↔ c ∈ s := by
  unfold pySortChars
  exact List.mem_insertionSort _

theorem mem_sortedDedup (c : Char) (l : List Char) :
    c ∈ sortedDedup l ↔ c ∈ l := by
  unfold sortedDedup
  rw [mem_pySortChars]
  exact List.mem_dedup

/-- The invariant of every constraint state reachable from the initial
state along `evaluate_guess` calls with a fixed valid answer. -/
def StateInv (answer : List Char) (poss : Poss) (amb : List Char) : Prop :=
  poss.length = 5
  ∧ (∀ i, i < 5 → answer.getD i ' ' ∈ poss.getD i [])
  ∧ (∀ c ∈ amb, c ∈ answer)
  ∧ (∀ i, ∀ c ∈ poss.getD i [], c ∈ ascii_lowercase)

/-- The one-position body of the `evaluate_guess` loop: the three tile
branches applied to `(unknown_pos, revised_poss)`. -/
def stepState (answer : List Char) (gc ac : Char) (p : Nat)
    (amb : List Char) (poss : Poss) : List Char × Poss :=
  if gc = ac then (amb.filter (· ≠ gc), poss.set p [gc])
  else if gc ∈ answer then
    (amb ++ [gc], poss.set p ((poss.getD p []).filter (· ≠ gc)))
  else (amb.filter (· ≠ gc), poss.map (fun s => s.filter (· ≠ gc)))

theorem evalSteps_cons (answer : List Char) (gc ac : Char)
    (rest : List (Char × Char)) (p : Nat) (amb : List Char) (poss : Poss) :
    evalSteps answer ((gc, ac) :: rest) p amb poss
      = evalSteps answer rest (p + 1) (stepState answer gc ac p amb poss).1
          (stepState answer gc ac p amb poss).2 := by
  by_cases h1 : gc = ac
  · simp [evalSteps, stepState, h1]
  · by_cases h2 : gc ∈ answer
    · simp [evalSteps, stepState, h1, h2]
    · simp [evalSteps, stepState, h1, h2]

theorem filter_ne_subset (s : List Char) (gc : Char) :
    s.filter (· ≠ gc) ⊆ s := by
  intro c hc
  exact (List.mem_filter.mp hc).1

theorem mem_filter_ne (c : Char) (s : List Char) (gc : Char) :
    c ∈ s.filter (· ≠ gc) ↔ (c ∈ s ∧ c ≠ gc) := by
  rw [List.mem_filter]
  simp

theorem stepState_inv (answer : List Char) (hlen5 : answer.length = 5)
    (hanslow : ∀ c ∈ answer, c ∈ ascii_lowercase)
    (gc ac : Char) (p : Nat) (amb : List Char) (poss : Poss)
    (hinv : StateInv answer poss amb) (hpa : answer[p]? = some ac) :
    StateInv answer (stepState answer gc ac p amb poss).2
        (stepState answer gc ac p amb poss).1
  ∧ (∀ j, (stepState answer gc ac p amb poss).2.getD j []
        ⊆ poss.getD j []) := by
  obtain ⟨hplen, hmem, hamb, hlow⟩ := hinv
  have hp5 : p < 5 := by
    obtain ⟨h, _⟩ := List.getElem?_eq_some.mp hpa
    omega
  have hgetp : answer.getD p ' ' = ac := by
    rw [List.getD_eq_getElem?_getD, hpa]
    rfl
  have hacmem : ac ∈ answer := by
    rw [← hgetp]
    exact getD_mem_self answer p ' ' (by omega)
  unfold stepState
  by_cases h1 : gc = ac
  · rw [if_pos h1]
    subst h1
    refine ⟨⟨?_, ?_, ?_, ?_⟩, ?_⟩
    · rw [List.length_set]; exact hplen
    · intro i hi
      rw [getD_set_poss]
      by_cases hpi : p = i ∧ p < poss.length
      · rw [if_pos hpi]
        rw [← hpi.1, hgetp]
        exact List.mem_singleton.mpr rfl
      · rw [if_neg hpi]
        exact hmem i hi
    · intro c hc
      exact hamb c (List.mem_filter.mp hc).1
    · intro i c hc
      rw [getD_set_poss] at hc
      by_cases hpi : p = i ∧ p < poss.length
      · rw [if_pos hpi] at hc
        rw [List.mem_singleton.mp hc]
        exact hanslow _ hacmem
      · rw [if_neg hpi] at hc
        exact hlow i c hc
    · intro j c hc
      rw [getD_set_poss] at hc
      by_cases hpi : p = j ∧ p < poss.length
      · rw [if_pos hpi] at hc
        rw [List.mem_singleton.mp hc, ← hgetp, hpi.1]
        exact hmem j (hpi.1 ▸ hp5)
      · rw [if_neg hpi] at hc
        exact hc
  · rw [if_neg h1]
    by_cases h2 : gc ∈ answer
    · rw [if_pos h2]
      refine ⟨⟨?_, ?_, ?_, ?_⟩, ?_⟩
      · rw [List.length_set]; exact hplen
      · intro i hi
        rw [getD_set_poss]
        by_cases hpi : p = i ∧ p < poss.length
        · rw [if_pos hpi]
          rw [← hpi.1, hgetp]
          exact (mem_filter_ne _ _ _).mpr
            ⟨hgetp ▸ hmem p hp5, fun heq => h1 heq.symm⟩
        · rw [if_neg hpi]
          exact hmem i hi
      · intro c hc
        rcases List.mem_append.mp hc with h | h
        · exact hamb c h
        · rw [List.mem_singleton.mp h]
          exact h2
      · intro i c hc
        rw [getD_set_poss] at hc
        by_cases hpi : p = i ∧ p < poss.length
        · rw [if_pos hpi] at hc
          exact hlow p c ((mem_filter_ne _ _ _).mp hc).1
        · rw [if_neg hpi] at hc
          exact hlow i c hc
      · intro j c hc
        rw [getD_set_poss] at hc
        by_cases hpi : p = j ∧ p < poss.length
        · rw [if_pos hpi] at hc
          rw [← hpi.1]
          exact ((mem_filter_ne _ _ _).mp hc).1
        · rw [if_neg hpi] at hc
          exact hc
    · rw [if_neg h2]
      refine ⟨⟨?_, ?_, ?_, ?_⟩, ?_⟩
      · rw [List.length_map]; exact hplen
      · intro i hi
        rw [getD_map_of_lt _ _ _ (by omega)]
        refine (mem_filter_ne _ _ _).mpr ⟨hmem i hi, ?_⟩
        intro heq
        exact h2 (heq ▸ getD_mem_self answer i ' ' (by omega))
      · intro c hc
        exact hamb c (List.mem_filter.mp hc).1
      · intro i c hc
        by_cases hi : i < poss.length
        · rw [getD_map_of_lt _ _ _ hi] at hc
          exact hlow i c ((mem_filter_ne _ _ _).mp hc).1
        · rw [getD_eq_nil_of_ge] at hc
          · cases hc
          · rw [List.length_map]; omega
      · intro j c hc
        by_cases hj : j < poss.length
        · rw [getD_map_of_lt _ _ _ hj] at hc
          exact ((mem_filter_ne _ _ _).mp hc).1
        · rw [getD_eq_nil_of_ge] at hc
          · cases hc
          · rw [List.length_map]; omega

theorem evalSteps_inv (answer : List Char) (hlen5 : answer.length = 5)
    (hanslow : ∀ c ∈ answer, c ∈ ascii_lowercase) :
    ∀ (gs : List Char) (p : Nat) (amb : List Char) (poss : Poss),
      StateInv answer poss amb →
      StateInv answer
          (evalSteps answer (gs.zip (List.drop p answer)) p amb poss).2
          (evalSteps answer (gs.zip (List.drop p answer)) p amb poss).1
      ∧ ∀ j, (evalSteps answer (gs.zip (List.drop p answer)) p amb poss).2.getD j []
          ⊆ poss.getD j [] := by
  intro gs
  induction gs with
  | nil =>
    intro p amb poss hinv
    simp only [List.zip_nil_left, evalSteps]
    exact ⟨hinv, fun j => List.Subset.refl _⟩
  | cons g gs' ih =>
    intro p amb poss hinv
    cases hdrop : List.drop p answer with
    | nil =>
      simp only [List.zip_nil_right, evalSteps]
      exact ⟨hinv, fun j => List.Subset.refl _⟩
    | cons ac tl =>
      have hpa : answer[p]? = some ac := by
        rw [← List.head?_drop, hdrop]
        rfl
      have htl : tl = List.drop (p + 1) answer := by
        rw [← List.tail_drop, hdrop]
        rfl
      have hzip : (g :: gs').zip (ac :: tl) = (g, ac) :: gs'.zip tl := rfl
      rw [hzip, evalSteps_cons]
      have hstep := stepState_inv answer hlen5 hanslow g ac p amb poss hinv hpa
      have hrest := ih (p + 1) (stepState answer g ac p amb poss).1
        (stepState answer g ac p amb poss).2 hstep.1
      rw [← htl] at hrest
      exact ⟨hrest.1, fun j => List.Subset.trans (hrest.2 j) (hstep.2 j)⟩

theorem evalSteps_amb_back (answer : List Char) (hlen5 : answer.length = 5)
    (hanslow : ∀ c ∈ answer, c ∈ ascii_lowercase) :
    ∀ (gs : List Char) (p : Nat) (amb : List Char) (poss : Poss),
      StateInv answer poss amb →
      ∀ m : List Char, 5 ≤ m.length →
        (∀ i, i < 5 → m.getD i ' '
          ∈ (evalSteps answer (gs.zip (List.drop p answer)) p amb poss).2.getD i []) →
        (∀ c ∈ (evalSteps answer (gs.zip (List.drop p answer)) p amb poss).1, c ∈ m) →
        ∀ c ∈ amb, c ∈ m := by
  intro gs
  induction gs with
  | nil =>
    intro p amb poss _ m _ _ hamb c hc
    simp only [List.zip_nil_left, evalSteps] at hamb
    exact hamb c hc
  | cons g gs' ih =>
    intro p amb poss hinv m hm hmatch hamb c hc
    cases hdrop : List.drop p answer with
    | nil =>
      rw [hdrop] at hamb
      simp only [List.zip_nil_right, evalSteps] at hamb
      exact hamb c hc
    | cons ac tl =>
      have hpa : answer[p]? = some ac := by
        rw [← List.head?_drop, hdrop]
        rfl
      have hp5 : p < 5 := by
        obtain ⟨h, _⟩ := List.getElem?_eq_some.mp hpa
        omega
      have htl : tl = List.drop (p + 1) answer := by
        rw [← List.tail_drop, hdrop]
        rfl
      have hzip : (g :: gs').zip (List.drop p answer) = (g, ac) :: gs'.zip tl := by
        rw [hdrop, List.zip_cons_cons]
      rw [hzip, evalSteps_cons] at hmatch hamb
      rw [htl] at hmatch hamb
      have hstep := stepState_inv answer hlen5 hanslow g ac p amb poss hinv hpa
      have hih := ih (p + 1) (stepState answer g ac p amb poss).1
        (stepState answer g ac p amb poss).2 hstep.1 m hm hmatch hamb
      -- it remains to transport membership from `amb` to the stepped
      -- unplaced-known set
      obtain ⟨hplen, hmem, hambinv, hlow⟩ := hinv
      by_cases h1 : g = ac
      · -- green: amb loses g, but any consistent word has g at position p
        have hst1 : (stepState answer g ac p amb poss).1 = amb.filter (· ≠ g) := by
          unfold stepState
          rw [if_pos h1]
        have hst2 : (stepState answer g ac p amb poss).2 = poss.set p [g] := by
          unfold stepState
          rw [if_pos h1]
        by_cases hcg : c = g
        · rw [hcg]
          have hsubrest := (evalSteps_inv answer hlen5 hanslow gs' (p + 1)
            (stepState answer g ac p amb poss).1
            (stepState answer g ac p amb poss).2 hstep.1).2 p
          have hstp : (stepState answer g ac p amb poss).2.getD p [] = [g] := by
            rw [hst2, getD_set_poss, if_pos ⟨rfl, by omega⟩]
          have hmp := hmatch p hp5
          have hgp : m.getD p ' ' ∈ [g] := by
            rw [← hstp]
            exact hsubrest hmp
          rw [← List.mem_singleton.mp hgp]
          exact getD_mem_self m p ' ' (by omega)
        · apply hih
          rw [hst1]
          exact (mem_filter_ne _ _ _).mpr ⟨hc, hcg⟩
      · by_cases h2 : g ∈ answer
        · -- yellow: amb only grows
          apply hih
          have hst1 : (stepState answer g ac p amb poss).1 = amb ++ [g] := by
            unfold stepState
            rw [if_neg h1, if_pos h2]
          rw [hst1]
          exact List.mem_append_left _ hc
        · -- gray: g is not in the answer, so g was never in amb
          apply hih
          have hst1 : (stepState answer g ac p amb poss).1
              = amb.filter (· ≠ g) := by
            unfold stepState
            rw [if_neg h1, if_neg h2]
          rw [hst1]
          refine (mem_filter_ne _ _ _).mpr ⟨hc, ?_⟩
          intro heq
          exact h2 (heq ▸ hambinv c hc)

theorem evaluate_guess_inv (answer : List Char) (hlen5 : answer.length = 5)
    (hanslow : ∀ c ∈ answer, c ∈ ascii_lowercase)
    (guess : List Char) (poss : Poss) (amb : List Char)
    (hinv : StateInv answer poss amb) :
    StateInv answer (evaluate_guess guess answer poss amb).2.2
        (evaluate_guess guess answer poss amb).2.1
  ∧ ∀ j, (evaluate_guess guess answer poss amb).2.2.getD j []
      ⊆ poss.getD j [] := by
  have hz : guess.zip answer = guess.zip (List.drop 0 answer) := by
    rw [List.drop_zero]
  have h := evalSteps_inv answer hlen5 hanslow guess 0 amb poss hinv
  unfold evaluate_guess
  rw [hz]
  obtain ⟨⟨i1, i2, i3, i4⟩, hsub⟩ := h
  refine ⟨⟨i1, i2, ?_, i4⟩, hsub⟩
  intro c hc
  exact i3 c ((mem_sortedDedup c _).mp hc)

theorem evaluate_guess_amb_back (answer : List Char) (hlen5 : answer.length = 5)
    (hanslow : ∀ c ∈ answer, c ∈ ascii_lowercase)
    (guess : List Char) (poss : Poss) (amb : List Char)
    (hinv : StateInv answer poss amb) :
    ∀ m : List Char, 5 ≤ m.length →
      (∀ i, i < 5 → m.getD i ' '
        ∈ (evaluate_guess guess answer poss amb).2.2.getD i []) →
      (∀ c ∈ (evaluate_guess guess answer poss amb).2.1, c ∈ m) →
      ∀ c ∈ amb, c ∈ m := by
  intro m hm hmatch hamb
  have hz : guess.zip answer = guess.zip (List.drop 0 answer) := by
    rw [List.drop_zero]
  unfold evaluate_guess at hmatch hamb
  rw [hz] at hmatch hamb
  refine evalSteps_amb_back answer hlen5 hanslow guess 0 amb poss hinv m hm
    hmatch ?_
  intro c hc
  exact hamb c ((mem_sortedDedup c _).mpr hc)

theorem bracketChars_not_lower :
    ']' ∉ ascii_lowercase ∧ '[' ∉ ascii_lowercase ∧ '\n' ∉ ascii_lowercase := by
  decide

theorem takeClassBody_content :
    ∀ (content acc rest : List Char), ']' ∉ content →
      takeClassBody acc (content ++ ']' :: rest) = some (acc ++ content, rest) := by
  intro content
  induction content with
  | nil =>
    intro acc rest _
    simp [takeClassBody]
  | cons c cs ih =>
    intro acc rest hnb
    have hc : c ≠ ']' := fun h => hnb (h ▸ List.mem_cons_self c cs)
    simp only [List.cons_append, takeClassBody, if_neg hc]
    show takeClassBody (acc ++ [c]) (cs ++ ']' :: rest) = some (acc ++ c :: cs, rest)
    rw [ih (acc ++ [c]) rest (fun h => hnb (List.mem_cons_of_mem c h))]
    simp

theorem takeClass_content (content rest : List Char) (hne : content ≠ [])
    (hnb : ']' ∉ content) :
    takeClass (content ++ ']' :: rest) = some (content, rest) := by
  cases content with
  | nil => exact absurd rfl hne
  | cons c cs =>
    have hc : c ≠ ']' := fun h => hnb (h ▸ List.mem_cons_self c cs)
    simp only [List.cons_append, takeClass, if_neg hc]
    have := takeClassBody_content (c :: cs) [] rest hnb
    simpa using this

theorem pySortChars_ne_nil (s : List Char) (h : s ≠ []) :
    pySortChars s ≠ [] := by
  intro hcon
  apply h
  have hlen : (pySortChars s).length = s.length := by
    unfold pySortChars
    exact List.length_insertionSort _ _
  rw [hcon] at hlen
  exact List.length_eq_zero.mp hlen.symm

theorem flatMap_chunks_length_ge (sets : List (List Char)) :
    sets.length
      ≤ (sets.flatMap (fun s => '[' :: (pySortChars s ++ [']']))).length := by
  induction sets with
  | nil => simp
  | cons s rest ih =>
    rw [List.flatMap_cons]
    simp only [List.length_append, List.length_cons]
    omega

theorem parseItemsF_class_step (f : Nat) (rest body rest2 : List Char)
    (h : takeClass rest = some (body, rest2)) :
    parseItemsF (f + 1) ('[' :: rest)
      = match parseItemsF f rest2 with
        | none => none
        | some items => some (RegexItem.cls body :: items) := by
  rw [parseItemsF, if_pos rfl, h]

theorem parseItemsF_chunks :
    ∀ (sets : List (List Char)) (fuel : Nat),
      (∀ s ∈ sets, s ≠ []) →
      (∀ s ∈ sets, ∀ c ∈ s, c ∈ ascii_lowercase) →
      sets.length + 2 ≤ fuel →
      parseItemsF fuel
          ((sets.flatMap (fun s => '[' :: (pySortChars s ++ [']']))) ++ ['\n'])
        = some ((sets.map (fun s => RegexItem.cls (pySortChars s)))
            ++ [RegexItem.lit '\n']) := by
  intro sets
  induction sets with
  | nil =>
    intro fuel _ _ hfuel
    match fuel, hfuel with
    | f + 2, _ =>
      simp [parseItemsF]
  | cons s sets' ih =>
    intro fuel hne hlow hfuel
    match fuel, hfuel with
    | f + 1, hfuel =>
      have hsne : pySortChars s ≠ [] :=
        pySortChars_ne_nil s (hne s (List.mem_cons_self s sets'))
      have hsnb : ']' ∉ pySortChars s := by
        intro hmem
        exact bracketChars_not_lower.1
          (hlow s (List.mem_cons_self s sets') ']' ((mem_pySortChars _ _).mp hmem))
      have hassoc :
          (s :: sets').flatMap (fun t => '[' :: (pySortChars t ++ [']'])) ++ ['\n']
            = '[' :: (pySortChars s
                ++ ']' :: (sets'.flatMap (fun t => '[' :: (pySortChars t ++ [']']))
                    ++ ['\n'])) := by
        rw [List.flatMap_cons]
        simp [List.append_assoc]
      rw [hassoc, parseItemsF_class_step f _ _ _
        (takeClass_content _ _ hsne hsnb)]
      rw [List.length_cons] at hfuel
      rw [ih f (fun t ht => hne t (List.mem_cons_of_mem s ht))
        (fun t ht => hlow t (List.mem_cons_of_mem s ht)) (by omega)]
      simp

theorem parseItems_buildRegex (poss : Poss)
    (hne : ∀ s ∈ poss, s ≠ [])
    (hlow : ∀ s ∈ poss, ∀ c ∈ s, c ∈ ascii_lowercase) :
    parseItems (buildRegex poss)
      = some ((poss.map (fun s => RegexItem.cls (pySortChars s)))
          ++ [RegexItem.lit '\n']) := by
  unfold parseItems buildRegex
  apply parseItemsF_chunks poss _ hne hlow
  have := flatMap_chunks_length_ge poss
  simp only [List.length_append, List.length_cons, List.length_nil]
  omega

theorem classPattern_cons (c : List Char) (rest : List (List Char)) :
    classPattern (c :: rest) = RegexItem.cls c :: classPattern rest := by
  unfold classPattern
  simp

theorem matchItemsAt_classPattern_nil (clss : List (List Char)) :
    matchItemsAt (classPattern clss) [] = none := by
  cases clss with
  | nil => rfl
  | cons c rest =>
    rw [classPattern_cons]
    rfl

theorem matchItemsAt_classPattern_some :
    ∀ (clss : List (List Char)) (text m rem : List Char),
      matchItemsAt (classPattern clss) text = some (m, rem) →
      m.length = clss.length + 1
      ∧ (∀ i, i < clss.length → m.getD i ' ' ∈ clss.getD i [])
      ∧ m.getD clss.length ' ' = '\n'
      ∧ text = m ++ rem := by
  intro clss
  induction clss with
  | nil =>
    intro text m rem h
    match text with
    | [] => simp [classPattern, matchItemsAt] at h
    | t :: r =>
      by_cases ht : t = '\n'
      · subst ht
        simp [classPattern, matchItemsAt] at h
        obtain ⟨hm, hrem⟩ := h
        subst hm
        subst hrem
        refine ⟨rfl, ?_, rfl, rfl⟩
        intro i hi
        cases hi
      · simp [classPattern, matchItemsAt, ht] at h
  | cons cl rest ih =>
    intro text m rem h
    rw [classPattern_cons] at h
    match text with
    | [] => simp [matchItemsAt] at h
    | t :: r =>
      simp only [matchItemsAt] at h
      by_cases ht : t ∈ cl
      · rw [if_pos ht] at h
        match h2 : matchItemsAt (classPattern rest) r with
        | none => rw [h2] at h; simp at h
        | some (m2, rem2) =>
          rw [h2] at h
          simp at h
          obtain ⟨rfl, rfl⟩ := h
          obtain ⟨hl2, hmem2, hlast2, happ2⟩ := ih r m2 rem2 h2
          refine ⟨?_, ?_, ?_, ?_⟩
          · simp [hl2]
          · intro i hi
            cases i with
            | zero =>
              rw [List.getD_cons_zero, List.getD_cons_zero]
              exact ht
            | succ j =>
              rw [List.getD_cons_succ, List.getD_cons_succ]
              exact hmem2 j (by simpa using hi)
          · rw [List.length_cons, List.getD_cons_succ]
            exact hlast2
          · rw [happ2]
            rfl
      · rw [if_neg ht] at h
        cases h

theorem matchItemsAt_classPattern_mk :
    ∀ (clss : List (List Char)) (m rem : List Char),
      m.length = clss.length + 1 →
      (∀ i, i < clss.length → m.getD i ' ' ∈ clss.getD i []) →
      m.getD clss.length ' ' = '\n' →
      matchItemsAt (classPattern clss) (m ++ rem) = some (m, rem) := by
  intro clss
  induction clss with
  | nil =>
    intro m rem hlen _ hlast
    match m, hlen with
    | [x], _ =>
      have hx : x = '\n' := by simpa using hlast
      subst hx
      simp [classPattern, matchItemsAt]
  | cons cl rest ih =>
    intro m rem hlen hmem hlast
    match m with
    | [] => simp at hlen
    | m0 :: m' =>
      rw [classPattern_cons]
      have h0 : m0 ∈ cl := by
        have := hmem 0 (by simp)
        simpa using this
      simp only [List.cons_append, matchItemsAt, if_pos h0]
      show Option.map (fun mr => (m0 :: mr.1, mr.2))
          (matchItemsAt (classPattern rest) (m' ++ rem)) = some (m0 :: m', rem)
      rw [ih m' rem (by simpa using hlen) ?_ ?_]
      · rfl
      · intro i hi
        have := hmem (i + 1) (by simpa using hi)
        rw [List.getD_cons_succ, List.getD_cons_succ] at this
        exact this
      · have := hlast
        rw [List.length_cons, List.getD_cons_succ] at this
        exact this

theorem matchItemsAt_classPattern_mono (clss1 clss2 : List (List Char))
    (hlen : clss2.length = clss1.length)
    (hsub : ∀ i, clss2.getD i [] ⊆ clss1.getD i [])
    (text m rem : List Char)
    (h : matchItemsAt (classPattern clss2) text = some (m, rem)) :
    matchItemsAt (classPattern clss1) text = some (m, rem) := by
  obtain ⟨hlen2, hmem, hlast, happ⟩ :=
    matchItemsAt_classPattern_some clss2 text m rem h
  rw [happ]
  apply matchItemsAt_classPattern_mk
  · rw [hlen2, hlen]
  · intro i hi
    exact hsub i (hmem i (by omega))
  · rw [← hlen]
    exact hlast

theorem findallF_cons_none (items : List RegexItem) (f : Nat) (t : Char)
    (rest : List Char) (h : matchItemsAt items (t :: rest) = none) :
    findallF items (f + 1) (t :: rest) = findallF items f rest := by
  simp only [findallF]
  rw [h]

theorem findallF_cons_some (items : List RegexItem) (f : Nat) (t : Char)
    (rest m rem : List Char)
    (h : matchItemsAt items (t :: rest) = some (m, rem)) (hm : m ≠ []) :
    findallF items (f + 1) (t :: rest) = m :: findallF items f rem := by
  simp only [findallF]
  rw [h]
  simp [hm]

theorem findallF_fuel_sufficient (items : List RegexItem) :
    ∀ (fuel fuel' : Nat) (text : List Char),
      text.length < fuel → text.length < fuel' →
      findallF items fuel text = findallF items fuel' text := by
  intro fuel
  induction fuel with
  | zero =>
    intro fuel' text h _
    omega
  | succ f ih =>
    intro fuel' text hf hf'
    match fuel', hf' with
    | f' + 1, hf' =>
      match text with
      | [] => rfl
      | t :: rest =>
        cases h2 : matchItemsAt items (t :: rest) with
        | none =>
          rw [findallF_cons_none _ _ _ _ h2, findallF_cons_none _ _ _ _ h2]
          exact ih f' rest (by simp at hf; omega) (by simp at hf'; omega)
        | some mr =>
          obtain ⟨m, rem⟩ := mr
          by_cases hm : m = []
          · subst hm
            simp only [findallF]
            rw [h2]
            rw [ih f' rest (by simp at hf; omega) (by simp at hf'; omega)]
            simp
          · rw [findallF_cons_some _ _ _ _ _ _ h2 hm,
              findallF_cons_some _ _ _ _ _ _ h2 hm]
            have happ := matchItemsAt_append _ _ _ _ h2
            have hmlen : 1 ≤ m.length := by
              cases m with
              | nil => exact absurd rfl hm
              | cons a b => simp
            have hlen2 : rest.length + 1 = m.length + rem.length := by
              have := congrArg List.length happ
              simpa using this
            rw [ih f' rem (by simp at hf; omega) (by simp at hf'; omega)]

theorem getLast?_of_getD_last (m : List Char) (n : Nat) (hlen : m.length = n + 1)
    (hlast : m.getD n ' ' = '\n') : m.getLast? = some '\n' := by
  have hn : n < m.length := by omega
  rw [List.getLast?_eq_getElem?]
  have h1 : m.length - 1 = n := by omega
  rw [h1, List.getElem?_eq_getElem hn]
  rw [List.getD_eq_getElem?_getD, List.getElem?_eq_getElem hn] at hlast
  simp at hlast
  rw [hlast]

theorem matchItemsAt_classPattern_fail (clss : List (List Char))
    (hnl : ∀ s ∈ clss, '\n' ∉ s) (s : List Char) (k : Nat)
    (hk : k < clss.length) (hsk : s.getD k ' ' = '\n') :
    matchItemsAt (classPattern clss) s = none := by
  cases h : matchItemsAt (classPattern clss) s with
  | none => rfl
  | some mr =>
    obtain ⟨m, rem⟩ := mr
    obtain ⟨hlen, hmem, hlast, happ⟩ :=
      matchItemsAt_classPattern_some clss s m rem h
    have hmk := hmem k hk
    have hgetD : s.getD k ' ' = m.getD k ' ' := by
      rw [happ, List.getD_eq_getElem?_getD, List.getD_eq_getElem?_getD,
        List.getElem?_append_left (show k < m.length by omega)]
    rw [hgetD] at hsk
    rw [hsk] at hmk
    exact absurd hmk (hnl _ (getD_mem_self clss k [] hk))

theorem findallF_skip (clss : List (List Char))
    (hnl : ∀ s ∈ clss, '\n' ∉ s) :
    ∀ (d : List Char) (fuel : Nat) (rem : List Char),
      d.getLast? = some '\n' → d.length ≤ clss.length →
      findallF (classPattern clss) (fuel + d.length) (d ++ rem)
        = findallF (classPattern clss) fuel rem := by
  intro d
  induction d with
  | nil =>
    intro fuel rem hlast _
    simp at hlast
  | cons x d' ih =>
    intro fuel rem hlast hdlen
    have hclen : 0 < clss.length := by
      simp at hdlen
      omega
    have hfail : matchItemsAt (classPattern clss) ((x :: d') ++ rem) = none := by
      apply matchItemsAt_classPattern_fail clss hnl _ ((x :: d').length - 1)
      · simp at hdlen ⊢
        omega
      · have h1 : ((x :: d') ++ rem).getD ((x :: d').length - 1) ' '
            = (x :: d').getD ((x :: d').length - 1) ' ' := by
          rw [List.getD_eq_getElem?_getD, List.getD_eq_getElem?_getD,
            List.getElem?_append_left (by simp)]
        rw [h1, List.getD_eq_getElem?_getD, ← List.getLast?_eq_getElem?, hlast]
        rfl
    have hfuel : fuel + (x :: d').length = (fuel + d'.length) + 1 := by
      simp
      omega
    rw [hfuel]
    have hstep := findallF_cons_none (classPattern clss) (fuel + d'.length) x
      (d' ++ rem) hfail
    rw [List.cons_append] at hfail ⊢
    rw [hstep]
    cases d' with
    | nil => simp
    | cons y d'' =>
      apply ih
      · rw [List.getLast?_cons_cons] at hlast
        exact hlast
      · simp at hdlen ⊢
        omega

theorem mem_findallF_structure (clss : List (List Char)) :
    ∀ (fuel : Nat) (text m : List Char), text.length < fuel →
      m ∈ findallF (classPattern clss) fuel text →
      m.length = clss.length + 1
      ∧ (∀ i, i < clss.length → m.getD i ' ' ∈ clss.getD i [])
      ∧ m.getD clss.length ' ' = '\n' := by
  intro fuel
  induction fuel with
  | zero =>
    intro text m h
    omega
  | succ f ih =>
    intro text m htext hm
    match text with
    | [] =>
      simp only [findallF, matchItemsAt_classPattern_nil] at hm
      cases hm
    | t :: rest =>
      cases h2 : matchItemsAt (classPattern clss) (t :: rest) with
      | none =>
        rw [findallF_cons_none _ _ _ _ h2] at hm
        exact ih rest m (by simp at htext; omega) hm
      | some mr =>
        obtain ⟨m0, rem⟩ := mr
        obtain ⟨hl0, hmem0, hlast0, happ0⟩ :=
          matchItemsAt_classPattern_some _ _ _ _ h2
        have hm0ne : m0 ≠ [] := by
          intro hc
          rw [hc] at hl0
          simp at hl0
        rw [findallF_cons_some _ _ _ _ _ _ h2 hm0ne] at hm
        rcases List.mem_cons.mp hm with rfl | hmtail
        · exact ⟨hl0, hmem0, hlast0⟩
        · refine ih rem m ?_ hmtail
          have hlen2 : rest.length + 1 = m0.length + rem.length := by
            have := congrArg List.length happ0
            simpa using this
          simp at htext
          omega

theorem findallF_mono (clss1 clss2 : List (List Char))
    (hlen : clss2.length = clss1.length)
    (hsub : ∀ i, clss2.getD i [] ⊆ clss1.getD i [])
    (hnl1 : ∀ s ∈ clss1, '\n' ∉ s)
    (hnl2 : ∀ s ∈ clss2, '\n' ∉ s) :
    ∀ (fuel : Nat) (text : List Char), text.length < fuel →
      ∀ m, m ∈ findallF (classPattern clss2) fuel text →
        m ∈ findallF (classPattern clss1) fuel text := by
  intro fuel
  induction fuel using Nat.strong_induction_on with
  | _ fuel ih =>
    intro text htext m hm
    match fuel, htext with
    | f + 1, htext =>
      match text with
      | [] =>
        simp only [findallF, matchItemsAt_classPattern_nil] at hm
        cases hm
      | t :: rest =>
        have hrestf : rest.length < f := by
          simp at htext
          omega
        cases h1 : matchItemsAt (classPattern clss1) (t :: rest) with
        | none =>
          have h2 : matchItemsAt (classPattern clss2) (t :: rest) = none := by
            cases h2c : matchItemsAt (classPattern clss2) (t :: rest) with
            | none => rfl
            | some mr =>
              obtain ⟨m2, rem2⟩ := mr
              have := matchItemsAt_classPattern_mono clss1 clss2 hlen hsub _ _ _ h2c
              rw [h1] at this
              cases this
          rw [findallF_cons_none _ _ _ _ h2] at hm
          rw [findallF_cons_none _ _ _ _ h1]
          exact ih f (by omega) rest hrestf m hm
        | some mr =>
          obtain ⟨m1, rem1⟩ := mr
          obtain ⟨hl1x, hmem1x, hlast1x, happ1x⟩ :=
            matchItemsAt_classPattern_some _ _ _ _ h1
          have hm1ne : m1 ≠ [] := by
            intro hc
            rw [hc] at hl1x
            simp at hl1x
          have hlen1x : rest.length + 1 = m1.length + rem1.length := by
            have := congrArg List.length happ1x
            simpa using this
          have hrem1f : rem1.length < f := by omega
          rw [findallF_cons_some _ _ _ _ _ _ h1 hm1ne]
          cases h2 : matchItemsAt (classPattern clss2) (t :: rest) with
          | some mr2 =>
            obtain ⟨m2, rem2⟩ := mr2
            have heq := matchItemsAt_classPattern_mono clss1 clss2 hlen hsub _ _ _ h2
            rw [h1] at heq
            have heq2 : m2 = m1 ∧ rem2 = rem1 := by
              have h3 := Option.some_inj.mp heq
              exact ⟨(congrArg Prod.fst h3).symm, (congrArg Prod.snd h3).symm⟩
            obtain ⟨hm2eq, hrem2eq⟩ := heq2
            rw [hm2eq, hrem2eq] at h2
            rw [findallF_cons_some _ _ _ _ _ _ h2 hm1ne] at hm
            rcases List.mem_cons.mp hm with rfl | htail
            · exact List.mem_cons_self _ _
            · exact List.mem_cons_of_mem _ (ih f (by omega) rem1 hrem1f m htail)
          | none =>
            rw [findallF_cons_none _ _ _ _ h2] at hm
            have hm1shape : ∃ mtail, m1 = t :: mtail := by
              cases m1 with
              | nil => exact absurd rfl hm1ne
              | cons a l =>
                have : t = a := by
                  have := happ1x
                  rw [List.cons_append] at this
                  exact (List.cons.injEq _ _ _ _ ▸ this).1
                exact ⟨l, by rw [this]⟩
            obtain ⟨mtail, rfl⟩ := hm1shape
            have hrest : rest = mtail ++ rem1 := by
              rw [List.cons_append] at happ1x
              exact (List.cons.injEq _ _ _ _ ▸ happ1x).2
            cases hmt : mtail with
            | nil =>
              rw [hmt] at hrest
              simp at hrest
              rw [hrest] at hm
              exact List.mem_cons_of_mem _
                (ih f (by omega) rem1 hrem1f m hm)
            | cons y mt2 =>
              have hmtne : mtail ≠ [] := by
                rw [hmt]
                simp
              have hmtlast : mtail.getLast? = some '\n' := by
                have hml : (t :: mtail).getLast? = some '\n' :=
                  getLast?_of_getD_last _ _ hl1x hlast1x
                rw [hmt] at hml ⊢
                rw [List.getLast?_cons_cons] at hml
                exact hml
              have hmtlen : mtail.length ≤ clss2.length := by
                rw [hlen]
                have : mtail.length = clss1.length := by
                  have := hl1x
                  simp at this
                  omega
                omega
              have hmtle : mtail.length ≤ f := by omega
              have hskip := findallF_skip clss2 hnl2 mtail (f - mtail.length) rem1
                hmtlast hmtlen
              have hfm : f - mtail.length + mtail.length = f := by omega
              rw [hfm] at hskip
              rw [hrest, hskip] at hm
              have hrem1small : rem1.length < f - mtail.length := by
                rw [hmt] at hmtne
                have : mtail.length + rem1.length ≤ rest.length := by
                  rw [hrest]
                  simp
                omega
              have hmono := ih (f - mtail.length) (by omega) rem1 hrem1small m hm
              have hconv := findallF_fuel_sufficient (classPattern clss1)
                (f - mtail.length) f rem1 hrem1small hrem1f
              rw [hconv] at hmono
              exact List.mem_cons_of_mem _ hmono

theorem parseItems_buildRegex' (poss : Poss)
    (hne : ∀ s ∈ poss, s ≠ [])
    (hlow : ∀ s ∈ poss, ∀ c ∈ s, c ∈ ascii_lowercase) :
    parseItems (buildRegex poss)
      = some (classPattern (poss.map pySortChars)) := by
  rw [parseItems_buildRegex poss hne hlow]
  unfold classPattern
  rw [List.map_map]
  rfl

theorem enumerate_solutions_eq (corpus : List (List Char)) (poss : Poss)
    (amb : List Char) (hne : ∀ s ∈ poss, s ≠ [])
    (hlow : ∀ s ∈ poss, ∀ c ∈ s, c ∈ ascii_lowercase) :
    enumerate_solutions corpus poss amb
      = some
        ((((findall (classPattern (poss.map pySortChars))
              (wordListText corpus)).filter
            (fun ans => amb.all (· ∈ ans))).map pyStrip).flatten,
         ((findall (classPattern (poss.map pySortChars))
              (wordListText corpus)).filter
            (fun ans => amb.all (· ∈ ans))).map pyStrip) := by
  unfold enumerate_solutions
  rw [parseItems_buildRegex' poss hne hlow]

theorem StateInv.sets_ne_nil (answer : List Char) (poss : Poss)
    (amb : List Char) (h : StateInv answer poss amb) :
    ∀ s ∈ poss, s ≠ [] := by
  intro s hs hemp
  obtain ⟨j, hj, hget⟩ := List.mem_iff_getElem.mp hs
  have hgd : poss.getD j [] = s := by
    rw [List.getD_eq_getElem?_getD, List.getElem?_eq_getElem hj, hget]
    rfl
  have hj5 : j < 5 := by
    rw [h.1] at hj
    exact hj
  have := h.2.1 j hj5
  rw [hgd, hemp] at this
  cases this

theorem StateInv.sets_lower (answer : List Char) (poss : Poss)
    (amb : List Char) (h : StateInv answer poss amb) :
    ∀ s ∈ poss, ∀ c ∈ s, c ∈ ascii_lowercase := by
  intro s hs c hc
  obtain ⟨j, hj, hget⟩ := List.mem_iff_getElem.mp hs
  have hgd : poss.getD j [] = s := by
    rw [List.getD_eq_getElem?_getD, List.getElem?_eq_getElem hj, hget]
    rfl
  exact h.2.2.2 j c (hgd ▸ hc)

theorem mapped_classes_no_newline (poss : Poss)
    (hlow : ∀ s ∈ poss, ∀ c ∈ s, c ∈ ascii_lowercase) :
    ∀ s ∈ poss.map pySortChars, '\n' ∉ s := by
  intro s hs hnl
  obtain ⟨s0, hs0, rfl⟩ := List.mem_map.mp hs
  exact bracketChars_not_lower.2.2 (hlow s0 hs0 '\n' ((mem_pySortChars _ _).mp hnl))

theorem enumerate_solutions_mono (corpus : List (List Char))
    (answer : List Char)
    (poss1 poss2 : Poss) (amb1 amb2 : List Char)
    (hinv1 : StateInv answer poss1 amb1) (hinv2 : StateInv answer poss2 amb2)
    (hsub : ∀ j, poss2.getD j [] ⊆ poss1.getD j [])
    (hambback : ∀ m : List Char, 5 ≤ m.length →
      (∀ i, i < 5 → m.getD i ' ' ∈ poss2.getD i []) →
      (∀ c ∈ amb2, c ∈ m) → ∀ c ∈ amb1, c ∈ m) :
    ∃ f1 c1 f2 c2,
      enumerate_solutions corpus poss1 amb1 = some (f1, c1)
      ∧ enumerate_solutions corpus poss2 amb2 = some (f2, c2)
      ∧ ∀ w ∈ c2, w ∈ c1 := by
  have hne1 := StateInv.sets_ne_nil answer poss1 amb1 hinv1
  have hne2 := StateInv.sets_ne_nil answer poss2 amb2 hinv2
  have hlow1 := StateInv.sets_lower answer poss1 amb1 hinv1
  have hlow2 := StateInv.sets_lower answer poss2 amb2 hinv2
  have hnl1 := mapped_classes_no_newline poss1 hlow1
  have hnl2 := mapped_classes_no_newline poss2 hlow2
  have hclen : (poss2.map pySortChars).length = (poss1.map pySortChars).length := by
    rw [List.length_map, List.length_map, hinv1.1, hinv2.1]
  have hcsub : ∀ i, (poss2.map pySortChars).getD i []
      ⊆ (poss1.map pySortChars).getD i [] := by
    intro i
    by_cases hi : i < poss2.length
    · rw [getD_map_of_lt _ _ _ hi,
        getD_map_of_lt _ _ _ (by rw [hinv1.1]; rw [hinv2.1] at hi; exact hi)]
      intro c hc
      exact (mem_pySortChars _ _).mpr (hsub i ((mem_pySortChars _ _).mp hc))
    · rw [getD_eq_nil_of_ge _ _ (by rw [List.length_map]; omega)]
      intro c hc
      cases hc
  refine ⟨_, _, _, _,
    enumerate_solutions_eq corpus poss1 amb1 hne1 hlow1,
    enumerate_solutions_eq corpus poss2 amb2 hne2 hlow2, ?_⟩
  intro w hw
  obtain ⟨mm, hmm, rfl⟩ := List.mem_map.mp hw
  obtain ⟨hmfound, hmall⟩ := List.mem_filter.mp hmm
  -- the match string itself transfers to the coarser pattern,
  have htextlen : (wordListText corpus).length < (wordListText corpus).length + 1 :=
    Nat.lt_succ_self _
  have hmono := findallF_mono (poss1.map pySortChars) (poss2.map pySortChars)
    hclen hcsub hnl1 hnl2 ((wordListText corpus).length + 1) (wordListText corpus)
    htextlen mm hmfound
  -- and the ambiguity filter transfers through the amb-back implication
  obtain ⟨hmlen, hmmem, _⟩ := mem_findallF_structure (poss2.map pySortChars)
    ((wordListText corpus).length + 1) (wordListText corpus) mm htextlen hmfound
  have hmlen5 : 5 ≤ mm.length := by
    rw [hmlen, List.length_map, hinv2.1]
    omega
  have hmmem5 : ∀ i, i < 5 → mm.getD i ' ' ∈ poss2.getD i [] := by
    intro i hi
    have hi2 : i < poss2.length := by rw [hinv2.1]; exact hi
    have := hmmem i (by rw [List.length_map]; exact hi2)
    rw [getD_map_of_lt _ _ _ hi2] at this
    exact (mem_pySortChars _ _).mp this
  have hamb2m : ∀ c ∈ amb2, c ∈ mm := by
    intro c hc
    have := List.all_eq_true.mp hmall c hc
    simpa using this
  have hamb1m : ∀ c ∈ amb1, c ∈ mm :=
    hambback mm hmlen5 hmmem5 hamb2m
  apply List.mem_map_of_mem
  apply List.mem_filter.mpr
  refine ⟨hmono, ?_⟩
  apply List.all_eq_true.mpr
  intro c hc
  simpa using hamb1m c hc

theorem StateInv_init (answer : List Char) (hlen5 : answer.length = 5)
    (hanslow : ∀ c ∈ answer, c ∈ ascii_lowercase) :
    StateInv answer initPoss [] := by
  refine ⟨rfl, ?_, ?_, ?_⟩
  · intro i hi
    have hmem : answer.getD i ' ' ∈ answer :=
      getD_mem_self answer i ' ' (by omega)
    have hlc := hanslow _ hmem
    match i, hi with
    | 0, _ => exact hlc
    | 1, _ => exact hlc
    | 2, _ => exact hlc
    | 3, _ => exact hlc
    | 4, _ => exact hlc
  · intro c hc
    cases hc
  · intro i c hc
    match i with
    | 0 => exact hc
    | 1 => exact hc
    | 2 => exact hc
    | 3 => exact hc
    | 4 => exact hc
    | n + 5 =>
      rw [getD_eq_nil_of_ge initPoss (n + 5) (by simp [initPoss])] at hc
      cases hc

theorem foldl_eval_inv (answer : List Char) (hlen5 : answer.length = 5)
    (hanslow : ∀ c ∈ answer, c ∈ ascii_lowercase) :
    ∀ (gs : List (List Char)) (st : Poss × List Char),
      StateInv answer st.1 st.2 →
      StateInv answer
        (gs.foldl (fun st g =>
          let r := evaluate_guess g answer st.1 st.2
          (r.2.2, r.2.1)) st).1
        (gs.foldl (fun st g =>
          let r := evaluate_guess g answer st.1 st.2
          (r.2.2, r.2.1)) st).2 := by
  intro gs
  induction gs with
  | nil =>
    intro st h
    exact h
  | cons g rest ih =>
    intro st h
    rw [List.foldl_cons]
    exact ih _ (evaluate_guess_inv answer hlen5 hanslow g st.1 st.2 h).1

theorem applyGuesses_inv (answer : List Char) (hlen5 : answer.length = 5)
    (hanslow : ∀ c ∈ answer, c ∈ ascii_lowercase)
    (gs : List (List Char)) :
    StateInv answer (applyGuesses answer gs).1 (applyGuesses answer gs).2 :=
  foldl_eval_inv answer hlen5 hanslow gs (initPoss, [])
    (StateInv_init answer hlen5 hanslow)

/-- C5: monotonic narrowing across a solve.  For a fixed valid answer
and any sequence of guesses threaded through `evaluate_guess` from the
initial all-letters-possible state, both enumerations succeed and the
candidate set after guess k+1 is a subset of the candidate set after
guess k, over any corpus. -/
theorem candidate_sets_narrow_monotonically (corpus : List (List Char))
    (answer : List Char) (hans : isValidWordleWord answer)
    (guesses : List (List Char)) (k : Nat) :
    ∃ f1 c1 f2 c2,
      enumerate_solutions corpus (applyGuesses answer (guesses.take k)).1
          (applyGuesses answer (guesses.take k)).2 = some (f1, c1)
      ∧ enumerate_solutions corpus (applyGuesses answer (guesses.take (k + 1))).1
          (applyGuesses answer (guesses.take (k + 1))).2 = some (f2, c2)
      ∧ ∀ w ∈ c2, w ∈ c1 := by
  obtain ⟨hlen5, hanslow⟩ := hans
  have hinv1 := applyGuesses_inv answer hlen5 hanslow (guesses.take k)
  by_cases hk : k < guesses.length
  · have htake : guesses.take (k + 1)
        = guesses.take k ++ [guesses[k]] := by
      rw [List.take_succ]
      rw [List.getElem?_eq_getElem hk]
      rfl
    have happly : applyGuesses answer (guesses.take (k + 1))
        = (let st := applyGuesses answer (guesses.take k)
           let r := evaluate_guess guesses[k] answer st.1 st.2
           (r.2.2, r.2.1)) := by
      unfold applyGuesses
      rw [htake, List.foldl_append]
      rfl
    rw [happly]
    have hstep := evaluate_guess_inv answer hlen5 hanslow guesses[k]
      (applyGuesses answer (guesses.take k)).1
      (applyGuesses answer (guesses.take k)).2 hinv1
    exact enumerate_solutions_mono corpus answer
      (applyGuesses answer (guesses.take k)).1
      (evaluate_guess guesses[k] answer
        (applyGuesses answer (guesses.take k)).1
        (applyGuesses answer (guesses.take k)).2).2.2
      (applyGuesses answer (guesses.take k)).2
      (evaluate_guess guesses[k] answer
        (applyGuesses answer (guesses.take k)).1
        (applyGuesses answer (guesses.take k)).2).2.1
      hinv1 hstep.1 hstep.2
      (evaluate_guess_amb_back answer hlen5 hanslow guesses[k]
        (applyGuesses answer (guesses.take k)).1
        (applyGuesses answer (guesses.take k)).2 hinv1)
  · have htake : guesses.take (k + 1) = guesses.take k := by
      rw [List.take_of_length_le (by omega), List.take_of_length_le (by omega)]
    rw [htake]
    exact enumerate_solutions_mono corpus answer
      (applyGuesses answer (guesses.take k)).1
      (applyGuesses answer (guesses.take k)).1
      (applyGuesses answer (guesses.take k)).2
      (applyGuesses answer (guesses.take k)).2
      hinv1 hinv1 (fun j => List.Subset.refl _)
      (fun m _ _ hamb c hc => hamb c hc)

/-- Witness for C5 at a concrete corpus, answer and guess sequence. -/
theorem candidate_sets_narrow_monotonically_witness :
    isValidWordleWord (strChars "ababa")
  ∧ (∃ f1 c1 f2 c2,
      enumerate_solutions [strChars "ababa", strChars "babab"]
          (applyGuesses (strChars "ababa") ([strChars "babab"].take 0)).1
          (applyGuesses (strChars "ababa") ([strChars "babab"].take 0)).2
        = some (f1, c1)
      ∧ enumerate_solutions [strChars "ababa", strChars "babab"]
          (applyGuesses (strChars "ababa") ([strChars "babab"].take (0 + 1))).1
          (applyGuesses (strChars "ababa") ([strChars "babab"].take (0 + 1))).2
        = some (f2, c2)
      ∧ ∀ w ∈ c2, w ∈ c1) :=
  ⟨by decide,
   candidate_sets_narrow_monotonically [strChars "ababa", strChars "babab"]
     (strChars "ababa") (by decide) [strChars "babab"] 0⟩
